import Mathlib

/-!
Shallow embedding of tcpp (Tomaszal's C preprocessor) in Lean 4.

The embedding follows the C source: `Location`, `Token`, the token list
(modelled as a `List Token` for the value-level claims and as an explicit
heap of linked nodes for the pointer-structure claim), the character reader
over a seekable stream, the tokenizer, the define table (`hashmap.c`,
MurmurHash2 over a fixed-size open slot array), the preprocessor driver and
the stringifier.  Machine integers are modelled as `Int`/`Nat` (with
explicit `% 2^32` in the hash, the only place 32-bit wraparound happens);
`char *` strings are Lean `String`s, a NULL string is `none`; reading a C
string at an index past the end yields the 0 byte, as the NUL terminator
does in the source.
-/

namespace TCPP

/-- File identity.  The C code identifies a file by the `char *file_name`
pointer; we model it as an optional pair of an allocation id and the string
contents, so that two distinct loads of the same path stay distinct, and
`none` models the NULL pointer. -/
abbrev FileName := Option (Nat × String)

/-- Location in a file (`struct Location`). -/
structure Location where
  file_name : FileName
  line : Int
  column : Int
deriving DecidableEq, Repr

/-- Checks if two given locations are on the same line (`same_line`). -/
def same_line (loc1 loc2 : Location) : Bool :=
  loc1.line == loc2.line && loc1.file_name == loc2.file_name

/-- Token data (`struct Token`, without the `prev`/`next` links, which are
represented by list/heap structure). -/
structure Token where
  string : Option String
  operator : Char
  is_identifier : Bool
  is_number : Bool
  is_comment : Bool
  is_directive : Bool
  location : Location
deriving DecidableEq, Repr

/-- Reads byte `i` of a C string; the NUL terminator and anything past it
read as the 0 byte. -/
def cGet (s : String) (i : Nat) : Char := s.data.getD i (Char.ofNat 0)

/-- Checks if a character is an appropriate first character for an
identifier (`is_identifier`). -/
def is_identifier (ch : Char) : Bool := ch.isAlpha || ch == '_' || ch == '$'

/-- C `isspace` on the default locale. -/
def isspace (ch : Char) : Bool :=
  ch == ' ' || ch == '\t' || ch == '\n' || ch == '\x0b' || ch == '\x0c' || ch == '\r'

/-- Generates a new token (`new_token`): zero-initialised flags, the given
string, and the start column derived by subtracting the string length from
the given end location. -/
def new_token (string : String) (end_location : Location) : Token :=
  { string := some string
    operator := Char.ofNat 0
    is_identifier := false
    is_number := false
    is_comment := false
    is_directive := false
    location := { end_location with column := end_location.column - string.length } }

/-- Automatically sets a token's flags (`set_token_flags`).  `prev` is the
token linked right before it and `prev2` the one before that; the C code
reads them through the `prev` pointers right after linking. -/
def set_token_flags (prev2 prev : Option Token) (token : Token) : Token :=
  let s := token.string.getD ""
  { token with
    operator := if cGet s 1 = Char.ofNat 0 then cGet s 0 else Char.ofNat 0
    is_identifier := is_identifier (cGet s 0)
    is_number := (cGet s 0).isDigit
    is_comment := cGet s 0 == '/' && (cGet s 1 == '/' || cGet s 1 == '*')
    is_directive :=
      match prev with
      | none => false
      | some p =>
        if p.operator == '#' then
          match prev2 with
          | none => true
          | some pp => !(same_line p.location pp.location)
        else false }

/-- Inserts a token at the end of a token list (`insert_token`); the
token's flags are derived from the two tokens now preceding it. -/
def insert_token (list : List Token) (token : Token) : List Token :=
  list ++ [set_token_flags list.dropLast.getLast? list.getLast? token]

/-- Counts the number of non-empty lines in a token list
(`count_non_empty_lines`): one count per strict increase of the running
maximum line number, starting from 0. -/
def count_non_empty_lines (token_list : List Token) : Nat :=
  (token_list.foldl
    (fun (st : Int × Nat) t =>
      if st.1 < t.location.line then (t.location.line, st.2 + 1) else st)
    (0, 0)).2

/-- Counts the number of comments in a token list (`count_comments`). -/
def count_comments (token_list : List Token) : Nat :=
  token_list.foldl (fun n t => if t.is_comment then n + 1 else n) 0

/-- Text test used by the spec to characterise comments: the first two
characters are `//` or `/*`. -/
def commentText (s : Option String) : Bool :=
  match s with
  | none => false
  | some s => cGet s 0 == '/' && (cGet s 1 == '/' || cGet s 1 == '*')

/-! Character reader.  A `FILE *` opened for reading is modelled as the
full character contents plus a cursor position; `fgetc` at end of file
returns EOF (`none`) without advancing, and `fseek(ifs, -1, SEEK_CUR)`
fails (leaving the position unchanged) when the position is 0, exactly as
in C. -/

/-- An open input stream: contents plus read position. -/
structure CFile where
  data : List Char
  pos : Nat
deriving DecidableEq, Repr

/-- C `fgetc`: the character under the cursor, or EOF (`none`, without
moving) at end of file. -/
def fgetc (f : CFile) : Option Char × CFile :=
  match f.data.get? f.pos with
  | some c => (some c, { f with pos := f.pos + 1 })
  | none => (none, f)

/-- C `fseek(ifs, -1, SEEK_CUR)`: one position back; a seek to a negative
offset fails and leaves the position unchanged. -/
def fseekBack1 (f : CFile) : CFile :=
  if f.pos = 0 then f else { f with pos := f.pos - 1 }

/-- Peeks the next character in a file stream (`f_peek_char`), looking
through one backslash-newline line continuation.  Mirrors the C control
flow: reads ahead, then unwinds with `fseek` calls. -/
def f_peek_char (f : CFile) : Option Char × CFile :=
  let (ch, f) := fgetc f
  match ch with
  | none => (none, f)
  | some c =>
    if c = '\\' then
      let (peek1, f) := fgetc f
      if peek1 = some '\n' ∨ peek1 = some '\r' then
        let (peek2, f) := fgetc f
        if peek2 = some '\n' ∧ peek1 = some '\r' then
          let (ch4, f) := fgetc f
          (ch4, fseekBack1 (fseekBack1 (fseekBack1 (fseekBack1 f))))
        else
          (peek2, fseekBack1 (fseekBack1 (fseekBack1 f)))
      else
        (some c, fseekBack1 (fseekBack1 f))
    else
      (some c, fseekBack1 f)

/-- The continued-line test of `f_read_char`: the C condition
`*ch == '\\' && (f_peek_char(ifs) == '\n' || f_peek_char(ifs) == '\r')`,
with the two short-circuited `f_peek_char` calls threaded in order,
including their effect on the stream state. -/
def contTest (ch : Option Char) (f : CFile) : Bool × CFile :=
  if ch = some '\\' then
    let (pk1, f) := f_peek_char f
    if pk1 = some '\n' then (true, f)
    else
      let (pk2, f) := f_peek_char f
      (pk2 = some '\r', f)
  else (false, f)

/-- The continued-line elision block of `f_read_char` (the body of the
`if` guarded by `contTest`): consume the terminator and produce the
character after it, handling LF, CR and CRLF. -/
def contElide (ch : Option Char) (f : CFile) : Option Char × CFile :=
  let (peek1, f) := fgetc f
  if peek1 = some '\n' ∨ peek1 = some '\r' then
    let (peek2, f) := fgetc f
    if peek2 = some '\n' ∧ peek1 = some '\r' then
      fgetc f
    else
      (peek2, f)
  else
    (ch, fseekBack1 f)

/-- The read and continuation-resolution part of `f_read_char`: read a
character and elide one backslash-newline continuation. -/
def readResolve (f : CFile) : Option Char × CFile :=
  let (ch, f) := fgetc f
  let (cont, f) := contTest ch f
  if cont then contElide ch f else (ch, f)

/-- The CR/CRLF-to-LF conversion block of `f_read_char`: turn CR into LF
and skip an LF right after it. -/
def crConvert (ch : Option Char) (f : CFile) : Option Char × CFile :=
  if ch = some '\r' then
    let (pk, f) := f_peek_char f
    if pk = some '\n' then
      let (_, f) := fgetc f
      (some '\n', f)
    else (some '\n', f)
  else (ch, f)

/-- Reads the next character from a file stream (`f_read_char`), eliding a
backslash-newline continuation, normalising CR and CRLF to LF, and
advancing the location.  Returns the character read (`none` models the
C result char holding EOF, for which the C function returns 0). -/
def f_read_char (f : CFile) (location : Location) :
    Option Char × CFile × Location :=
  let (ch, f) := readResolve f
  let (ch, f) := crConvert ch f
  let location :=
    if ch = some '\n' then
      { location with line := location.line + 1, column := 0 }
    else
      { location with column := location.column + 1 }
  (ch, f, location)

/-- CR/CRLF-to-LF normalisation of a read character, the only difference
between what `f_peek_char` returns and what `f_read_char` then yields:
the reader normalises a carriage return to a line feed, the peek does
not. -/
def crNorm (c : Option Char) : Option Char :=
  if c = some '\r' then some '\n' else c

/-- Reads a string between a START and an END character (`f_read_until`).
The C loop is not guaranteed to terminate on adversarial streams, so the
recursion carries fuel; with fuel at least the remaining stream length plus
one it never runs out. -/
def f_read_until : Nat → CFile → Char → Char → Location → String × CFile × Location
  | 0, f, start, _, location => (String.mk [start], f, location)
  | fuel + 1, f, start, end_, location =>
    go fuel f end_ location (String.mk [start])
where
  /-- The `do`/`while` body of `f_read_until`, after the initial append of
  the start character. -/
  go : Nat → CFile → Char → Location → String → String × CFile × Location
  | 0, f, _, location, acc => (acc, f, location)
  | fuel + 1, f, end_, location, acc =>
    match f_read_char f location with
    | (none, f, location) => (acc, f, location)
    | (some ch, f, location) =>
      let acc := acc.push ch
      if ch ≠ end_ ∧ ch ≠ '\n' then go fuel f end_ location acc
      else (acc, f, location)

/-! Define table (`hashmap.c`): MurmurHash2 over the bytes of the key,
an open fixed-size slot array with last-write-wins overwrite at the slot
(collisions silently alias, as in the source).  The slot array is modelled
as a function from index to optional value. -/

/-- MurmurHash2 mixing constant `m`. -/
def murmurM : Nat := 0x5bd1e995

/-- 2^32, the modulus of C `unsigned int` arithmetic. -/
def U32 : Nat := 4294967296

/-- Body of `murmur_hash`: mixes 4 bytes at a time (little-endian load),
then the 1–3 tail bytes, then the final avalanche. -/
def murmurBody (h : Nat) : List Nat → Nat
  | b0 :: b1 :: b2 :: b3 :: rest =>
    let k := b0 + b1 * 256 + b2 * 65536 + b3 * 16777216
    let k := (k * murmurM) % U32
    let k := Nat.xor k (k / 2 ^ 24)
    let k := (k * murmurM) % U32
    let h := (h * murmurM) % U32
    murmurBody (Nat.xor h k) rest
  | tail =>
    let h :=
      match tail with
      | [t0] => (Nat.xor h t0 * murmurM) % U32
      | [t0, t1] => (Nat.xor (Nat.xor h (t1 * 256)) t0 * murmurM) % U32
      | [t0, t1, t2] =>
        (Nat.xor (Nat.xor (Nat.xor h (t2 * 65536)) (t1 * 256)) t0 * murmurM) % U32
      | _ => h
    let h := Nat.xor h (h / 2 ^ 13)
    let h := (h * murmurM) % U32
    Nat.xor h (h / 2 ^ 15)

/-- `murmur_hash` on a byte sequence with the given seed. -/
def murmur_hash (key : List Nat) (seed : Nat) : Nat :=
  murmurBody (Nat.xor seed key.length) key

/-- Bytes of a C string (tcpp keys are ASCII). -/
def strBytes (s : String) : List Nat := s.data.map Char.toNat

/-- `struct HashMap`: size, seed, and the slot array as a function. -/
structure HashMap where
  size : Nat
  seed : Nat
  map : Nat → Option String

/-- `new_hash_map`: all slots empty. -/
def new_hash_map (size seed : Nat) : HashMap :=
  { size := size, seed := seed, map := fun _ => none }

/-- `hash_map_hash`: murmur of the key bytes, reduced modulo the table
size. -/
def hash_map_hash (hm : HashMap) (key : String) : Nat :=
  murmur_hash (strBytes key) hm.seed % hm.size

/-- `hash_map_insert_key`: overwrite the slot of the key's hash. -/
def hash_map_insert_key (hm : HashMap) (key : String) (value : String) : HashMap :=
  { hm with map := fun i => if i = hash_map_hash hm key then some value else hm.map i }

/-- `hash_map_get_key`: the contents of the slot of the key's hash. -/
def hash_map_get_key (hm : HashMap) (key : String) : Option String :=
  hm.map (hash_map_hash hm key)

/-! Tokenizer (`tokenize_file`).  The C loops may fail to terminate on
adversarial streams (a stream whose last character is a lone backslash
makes `f_peek_char` move the position backwards), so each loop carries
fuel; on well-behaved inputs every read advances the position, and fuel
`data.length + 2` is enough. -/

/-- The name-or-number token loop of `tokenize_file`: append the current
character, then keep reading while the peeked character is an identifier
character or a digit. -/
def read_name : Nat → CFile → Location → String → Char → String × CFile × Location
  | 0, f, location, acc, ch => (acc.push ch, f, location)
  | fuel + 1, f, location, acc, ch =>
    let acc := acc.push ch
    let (pk, f) := f_peek_char f
    match pk with
    | some c =>
      if is_identifier c || c.isDigit then
        match f_read_char f location with
        | (some ch, f, location) => read_name fuel f location acc ch
        | (none, f, location) => (acc, f, location)
      else (acc, f, location)
    | none => (acc, f, location)

/-- The single-line comment loop of `tokenize_file`: append the current
character, then keep reading while the peeked character is not the line
feed. -/
def read_line_comment : Nat → CFile → Location → String → Char → String × CFile × Location
  | 0, f, location, acc, ch => (acc.push ch, f, location)
  | fuel + 1, f, location, acc, ch =>
    let acc := acc.push ch
    let (pk, f) := f_peek_char f
    if pk = some '\n' then (acc, f, location)
    else
      match f_read_char f location with
      | (some ch, f, location) => read_line_comment fuel f location acc ch
      | (none, f, location) => (acc, f, location)

/-- The multi-line comment loop of `tokenize_file`: append the current
character and keep reading until a `*` whose peeked successor is `/` (the
`*` is read but not appended; the caller appends the closing `*/` and
consumes the `/`). -/
def read_block_comment : Nat → CFile → Location → String → Char → String × CFile × Location
  | 0, f, location, acc, ch => (acc.push ch, f, location)
  | fuel + 1, f, location, acc, ch =>
    let acc := acc.push ch
    match f_read_char f location with
    | (none, f, location) => (acc, f, location)
    | (some ch, f, location) =>
      if ch = '*' then
        let (pk, f) := f_peek_char f
        if pk = some '/' then (acc, f, location)
        else read_block_comment fuel f location acc ch
      else read_block_comment fuel f location acc ch

/-- The `<` branch guard of `tokenize_file`: the list's back token exists,
is flagged as a directive, and its text is `include`. -/
def includeContext (acc : List Token) : Bool :=
  match acc.getLast? with
  | some b => b.is_directive && b.string == some "include"
  | none => false

/-- The token-consumption dispatch of `tokenize_file` for a non-space
lead character `ch`, threading the states of the short-circuited
`f_peek_char` calls of the C conditions in order.  Returns the token text
and the stream and location after the token. -/
def scan_token (fuel : Nat) (f : CFile) (location : Location) (acc : List Token)
    (ch : Char) : String × CFile × Location :=
  if is_identifier ch || ch.isDigit then
    read_name fuel f location "" ch
  else if ch = '/' then
    let (pk1, f) := f_peek_char f
    if pk1 = some '/' then
      read_line_comment fuel f location "" ch
    else
      let (pk2, f) := f_peek_char f
      if pk2 = some '*' then
        let (s, f, location) := read_block_comment fuel f location "" ch
        let (_, f) := fgetc f
        (s ++ "*/", f, location)
      else
        (String.mk [ch], f, location)
  else if ch = '"' ∨ ch = '\'' then
    f_read_until fuel f ch ch location
  else if ch = '<' ∧ includeContext acc then
    f_read_until fuel f '<' '>' location
  else
    (String.mk [ch], f, location)

/-- The main tokenizer loop of `tokenize_file`: skip whitespace, consume
one token via `scan_token`, and insert it with the current location. -/
def tokenize_go : Nat → CFile → Location → List Token → List Token × CFile × Location
  | 0, f, location, acc => (acc, f, location)
  | fuel + 1, f, location, acc =>
    match f_read_char f location with
    | (none, f, location) => (acc, f, location)
    | (some ch, f, location) =>
      if isspace ch then tokenize_go fuel f location acc
      else
        match scan_token fuel f location acc ch with
        | (token_string, f, location) =>
          tokenize_go fuel f location (insert_token acc (new_token token_string location))

/-- Reads a file and generates a token list by tokenizing it
(`tokenize_file`), starting at line 1, column 0. -/
def tokenize_file (fuel : Nat) (data : List Char) (fid : Nat × String) : List Token :=
  (tokenize_go fuel { data := data, pos := 0 }
    { file_name := some fid, line := 1, column := 0 } []).1

/-! Stringifier (`write_token_list_to_file`), rendering to a string
instead of a stream.  The cursor starts at the NULL file, line 0,
column 0; the `while` catch-up loops are rendered as replicated newline
and space characters. -/

/-- The per-token loop of `write_token_list_to_file`. -/
def write_go : Location → List Token → String
  | _, [] => ""
  | cursor, t :: ts =>
    let (pre, cursor) :=
      if t.location.file_name ≠ cursor.file_name then
        ((if cursor.line ≠ 0 then "\n" else ""), t.location)
      else ("", cursor)
    let nl := (t.location.line - cursor.line).toNat
    let cursor :=
      if cursor.line < t.location.line then
        { cursor with line := t.location.line, column := 0 }
      else cursor
    let sp := (t.location.column - cursor.column).toNat
    let cursor :=
      if cursor.column < t.location.column then
        { cursor with column := t.location.column }
      else cursor
    let (txt, cursor) :=
      match t.string with
      | some s => (s, { cursor with column := cursor.column + s.length })
      | none => ("", cursor)
    pre ++ String.mk (List.replicate nl '\n') ++ String.mk (List.replicate sp ' ')
      ++ txt ++ write_go cursor ts

/-- Writes a token list out (`write_token_list_to_file`): the rendered
tokens followed by a final newline. -/
def write_token_list (token_list : List Token) : String :=
  write_go { file_name := none, line := 0, column := 0 } token_list ++ "\n"

/-! Preprocessor driver (`preprocess_token_list`).  The single
left-to-right pass is modelled as a zipper: `acc` holds the already-walked
tokens in reverse, `rest` the tokens still ahead of the loop pointer.
Reading tokenized include targets through `fs` (the file system as a map
from resolved path to token list, `none` when the file cannot be opened);
a missing file makes the C code call `tokenize_file`, which prints a
diagnostic and exits the process — modelled as `fatalOpen`.  NULL-pointer
dereferences of the C code (include at the very front of the list, define
running off the end of the list, a NULL token string, splicing an empty
included list) are modelled as `nullDeref`. -/

/-- Abnormal terminations of preprocessing. -/
inductive PpError where
  | fatalOpen : String → PpError
  | nullDeref : PpError
deriving DecidableEq, Repr

/-- Directory part of the entry file's path, as computed by
`preprocess_token_list`: everything up to and including the last `/`,
scanning down to (but not including) index 0; the whole string when no
`/` is found. -/
def dirOf (s : String) : String :=
  if '/' ∈ s.data.tail then String.mk ((s.data.reverse.dropWhile (· ≠ '/')).reverse)
  else s

/-- The quoted include filename with the surrounding characters stripped,
as built by `strcpy` + `strncat` in the include branch. -/
def stripInclude (s : String) : String := String.mk ((s.data.drop 1).dropLast)

/-- The spacer token inserted after an include: no text, zeroed flags, the
outer file's identity and the line after the filename token's line. -/
def spacer_token (ftok : Token) : Token :=
  { string := none
    operator := Char.ofNat 0
    is_identifier := false
    is_number := false
    is_comment := false
    is_directive := false
    location :=
      { file_name := ftok.location.file_name
        line := ftok.location.line + 1
        column := 0 } }

/-- The column-shift walk of the substitution branch: starting from the
token after the substituted one, subtract `spacing_fix` from the column of
every token while it is on the same line as the substituted token,
stopping at the first token that is not. -/
def shift_line (loc : Location) (spacing_fix : Int) : List Token → List Token
  | [] => []
  | t :: ts =>
    if same_line loc t.location then
      { t with location := { t.location with column := t.location.column - spacing_fix } }
        :: shift_line loc spacing_fix ts
    else t :: ts

/-- The non-directive branch of the driver: look the token's text up in
the define table; on a hit, replace the text in place (flags and location
untouched) and shift the columns of the following tokens on the same line
by the length difference.  Returns the (possibly modified) token and the
rewritten tail. -/
def substitute_step (dm : HashMap) (token : Token) (tstr : String)
    (rest : List Token) : Token × List Token :=
  match hash_map_get_key dm tstr with
  | some define =>
    let spacing_fix : Int := (tstr.length : Int) - (define.length : Int)
    ({ token with string := some define }, shift_line token.location spacing_fix rest)
  | none => (token, rest)

/-- The driver loop of `preprocess_token_list` over the zipper. -/
def preprocess_go (fs : String → Option (List Token)) (file_location : String) :
    HashMap → List String → List Token → List Token →
    Except PpError (List Token × HashMap × List String)
  | dm, diags, acc, [] => .ok (acc.reverse, dm, diags)
  | dm, diags, acc, token :: rest =>
    match token.string with
    | none => .error .nullDeref
    | some tstr =>
      if token.is_directive then
        if tstr = "include" then
          match rest with
          | [] => .error .nullDeref
          | ftok :: rest2 =>
            match ftok.string with
            | none => .error .nullDeref
            | some fstr =>
              if cGet fstr 0 = '"' then
                let file_name := file_location ++ stripInclude fstr
                match fs file_name with
                | none => .error (.fatalOpen file_name)
                | some temp =>
                  match acc with
                  | [] => .error .nullDeref
                  | _ :: acc2 =>
                    if temp.isEmpty then .error .nullDeref
                    else
                      preprocess_go fs file_location dm diags
                        (spacer_token ftok :: (temp.reverse ++ acc2)) rest2
              else
                preprocess_go fs file_location dm
                  (diags ++ ["Could not find '" ++ fstr ++ "'."])
                  (ftok :: token :: acc) rest2
        else if tstr = "define" then
          match rest with
          | [] => .error .nullDeref
          | nameTok :: rest2 =>
            match rest2 with
            | [] => .error .nullDeref
            | t0 :: rest3 =>
              let consumed := t0 :: rest3.takeWhile fun t => same_line t.location t0.location
              if consumed.any fun t => t.string.isNone then .error .nullDeref
              else
                match hrem : rest3.dropWhile (fun t => same_line t.location t0.location) with
                | [] => .error .nullDeref
                | next1 :: rem2 =>
                  match nameTok.string with
                  | none => .error .nullDeref
                  | some nstr =>
                    match acc with
                    | [] => .error .nullDeref
                    | _ :: acc2 =>
                      let text := consumed.foldl (fun a t => a ++ t.string.getD "") ""
                      preprocess_go fs file_location
                        (hash_map_insert_key dm nstr text) diags
                        (next1 :: acc2) rem2
        else
          preprocess_go fs file_location dm diags (token :: acc) rest
      else
        let sr := substitute_step dm token tstr rest
        preprocess_go fs file_location dm diags (sr.1 :: acc) sr.2
  termination_by _ _ _ rest => rest.length
  decreasing_by
  all_goals simp only [List.length_cons]
  all_goals try omega
  all_goals try
    -- define branch: the remainder after the consumed run is shorter
    (have hle : ∀ (p : Token → Bool) (l l2 : List Token) (x : Token),
         l.dropWhile p = x :: l2 → l2.length < l.length := by
       intro p l l2 x h
       have h1 := congrArg List.length
         (List.takeWhile_append_dropWhile (p := p) (l := l))
       rw [h] at h1
       simp only [List.length_append, List.length_cons] at h1
       omega
     have := hle _ _ _ _ hrem
     omega)
  all_goals
    -- substitution branch: the rewritten tail has the same length
    (have hlen : ∀ (loc : Location) (fix : Int) (l : List Token),
         (shift_line loc fix l).length = l.length := by
       intro loc fix l
       induction l with
       | nil => rfl
       | cons t ts ih =>
         by_cases h : same_line loc t.location <;> simp [shift_line, h, ih]
     cases hget : hash_map_get_key dm tstr <;>
       simp [substitute_step, hget, hlen])

/-- Preprocesses a list of raw tokens (`preprocess_token_list`): early
return on an empty list, otherwise run the driver with the entry file's
directory and a fresh define table of size `0xffff` seeded with
`0xb5c236b5`. -/
def preprocess_token_list (fs : String → Option (List Token)) (token_list : List Token) :
    Except PpError (List Token × HashMap × List String) :=
  match token_list with
  | [] => .ok ([], new_hash_map 0xffff 0xb5c236b5, [])
  | front :: _ =>
    match front.location.file_name with
    | none => .error .nullDeref
    | some fid =>
      preprocess_go fs (dirOf fid.2) (new_hash_map 0xffff 0xb5c236b5) [] [] token_list

/-! Input class for the round-trip claim.  A layout is a list of lines;
each line is a list of (gap, word) pairs — `gap` spaces followed by the
word.  The text of a layout joins the lines with a terminator.  The class
the stringifier can reproduce requires: at least one line, no empty line,
words made of identifier characters and digits, at least one space
between words, and no indentation before the very first token. -/

/-- One source line: (gap, word) pairs. -/
abbrev LayLine := List (Nat × String)

/-- A run of spaces. -/
def spacesStr (n : Nat) : String := String.mk (List.replicate n ' ')

/-- Text of one line (without its terminator). -/
def wsText : LayLine → String
  | [] => ""
  | (g, w) :: ws => spacesStr g ++ w ++ wsText ws

/-- Text of a layout: each line followed by the terminator `eol`. -/
def layoutText (eol : String) : List LayLine → String
  | [] => ""
  | l :: ls => wsText l ++ eol ++ layoutText eol ls

/-- A word the tokenizer reads as one name-or-number token. -/
def identWord (w : String) : Prop :=
  w ≠ "" ∧ ∀ c ∈ w.data, (is_identifier c || c.isDigit) = true

/-- Well-formed line: identifier words, and at least one space between
adjacent words. -/
def wfLine (ws : LayLine) : Prop :=
  (∀ gw ∈ ws, identWord gw.2) ∧ ∀ gw ∈ ws.tail, 1 ≤ gw.1

/-- Well-formed layout: nonempty, no empty lines, well-formed lines, and
no indentation on the first token of the file. -/
def wfLayout (ls : List LayLine) : Prop :=
  ls ≠ [] ∧ (∀ l ∈ ls, l ≠ [] ∧ wfLine l) ∧
  match ls with
  | (gw :: _) :: _ => gw.1 = 0
  | _ => True

/-- The raw (string, end location) pairs the tokenizer produces for one
line, starting at line `i` and column `c`. -/
def wsRaws (fid : Nat × String) (i : Int) : Int → LayLine → List (String × Location)
  | _, [] => []
  | c, (g, w) :: ws =>
    (w, { file_name := some fid, line := i, column := c + g + w.length }) ::
      wsRaws fid i (c + g + w.length) ws

/-- The raw (string, end location) pairs for a whole layout starting at
line `i`. -/
def layoutRaws (fid : Nat × String) : Int → List LayLine → List (String × Location)
  | _, [] => []
  | i, l :: ls => wsRaws fid i 0 l ++ layoutRaws fid (i + 1) ls

/-- Append a list of raw tokens to a token list through `insert_token`
and `new_token`, the only way the tokenizer adds tokens. -/
def insertAll (acc : List Token) (raws : List (String × Location)) : List Token :=
  raws.foldl (fun a r => insert_token a (new_token r.1 r.2)) acc

/-! Pointer-level model of the token list for the linked-structure claim.
Nodes live in a heap addressed by `Nat` (a pointer is `Option Nat`, NULL
is `none`); `insert_token` and `delete_token_from_list` are re-read at
this level, and well-formedness is phrased as the heap laying out a given
sequence of distinct addresses. -/

/-- A heap node: token data plus the two links of `struct Token`. -/
structure DNode where
  data : Token
  prev : Option Nat
  next : Option Nat

/-- `struct TokenList` over a heap of nodes. -/
structure DTokenList where
  heap : Nat → Option DNode
  front_token : Option Nat
  back_token : Option Nat

/-- The token stored at an address, if any. -/
def heapToken (h : Nat → Option DNode) (i : Option Nat) : Option Token :=
  i.bind fun j => (h j).map (·.data)

/-- All-zero token, the value of a node the model reads through a dangling
pointer (never reached under the well-formedness hypotheses). -/
def emptyToken : Token :=
  { string := none
    operator := Char.ofNat 0
    is_identifier := false
    is_number := false
    is_comment := false
    is_directive := false
    location := { file_name := none, line := 0, column := 0 } }

/-- `insert_token` on the heap model: link the fresh address `i` holding
`t` at the back and set its flags from the two previous tokens. -/
def insert_token_heap (l : DTokenList) (i : Nat) (t : Token) : DTokenList :=
  let prevId := l.back_token
  let prevTok := heapToken l.heap prevId
  let prev2Tok := heapToken l.heap (prevId.bind fun j => (l.heap j).bind (·.prev))
  let node : DNode := { data := set_token_flags prev2Tok prevTok t
                        prev := prevId
                        next := none }
  let heap :=
    match l.front_token, l.back_token with
    | some _, some b =>
      fun j => if j = b then (l.heap b).map fun n : DNode => { n with next := some i } else l.heap j
    | _, _ => l.heap
  let heap := fun j => if j = i then some node else heap j
  { heap := heap
    front_token := if l.front_token = none then some i else l.front_token
    back_token := some i }

/-- The `if (prev) { prev->next = next; }` step of `delete_token_from_list`:
repoint the predecessor's next link, if there is a predecessor. -/
def relinkNext (h : Nat → Option DNode) (p nx : Option Nat) : Nat → Option DNode :=
  match p with
  | none => h
  | some pid =>
    fun j => if j = pid then (h pid).map fun n : DNode => { n with next := nx } else h j

/-- The `if (next) { next->prev = prev; }` step of `delete_token_from_list`:
repoint the successor's prev link, if there is a successor. -/
def relinkPrev (h : Nat → Option DNode) (nx p : Option Nat) : Nat → Option DNode :=
  match nx with
  | none => h
  | some nid =>
    fun j => if j = nid then (h nid).map fun n : DNode => { n with prev := p } else h j

/-- `delete_token_from_list` on the heap model: NULL in, NULL out with the
list untouched; otherwise relink both neighbours, fix up the anchors, free
the node, and return the successor. -/
def delete_token_from_list_heap (l : DTokenList) (i : Option Nat) :
    Option Nat × DTokenList :=
  match i with
  | none => (none, l)
  | some i =>
    let nd := (l.heap i).getD { data := emptyToken, prev := none, next := none }
    let p := nd.prev
    let nx := nd.next
    let heap := relinkPrev (relinkNext l.heap p nx) nx p
    let front := if l.front_token = some i then nx else l.front_token
    let back := if l.back_token = some i then p else l.back_token
    let heap := fun j => if j = i then none else heap j
    (nx, { heap := heap, front_token := front, back_token := back })

/-- The heap of `l` lays the addresses `ids` out as a doubly linked list:
the anchors are the first and last address, and the node at position `k`
points back to position `k - 1` (NULL for the first) and forward to
position `k + 1` (NULL for the last).  For the empty sequence both anchors
are NULL. -/
def represents (l : DTokenList) (ids : List Nat) : Prop :=
  l.front_token = ids.head? ∧ l.back_token = ids.getLast? ∧
  ∀ k, (hk : k < ids.length) → ∃ n, l.heap (ids.get ⟨k, hk⟩) = some n ∧
    n.prev = (if k = 0 then none else ids.get? (k - 1)) ∧
    n.next = ids.get? (k + 1)

/-- Same-line blocks of a token list are contiguous: whenever three
tokens occur in this order in the list and the first and the third are on
the same line, the middle one is on that line too.  Token lists built by
the tokenizer have non-decreasing line numbers per file, hence satisfy
this. -/
def linesContiguous (l : List Token) : Prop :=
  ∀ x y z : Token, List.Sublist [x, y, z] l →
    same_line x.location z.location = true → same_line y.location z.location = true

/-- A plain token value for concrete instances: text `s` in file
`(0, "a.c")` with the given line and start column, zero flags. -/
def tokAt (s : String) (line column : Int) : Token :=
  { string := some s
    operator := Char.ofNat 0
    is_identifier := false
    is_number := false
    is_comment := false
    is_directive := false
    location := { file_name := some (0, "a.c"), line := line, column := column } }

/-- The token value a raw (string, end location) pair turns into: exactly
the string//location content `new_token` gives it (flags as set at
insertion do not affect rendering). -/
def rawToken (r : String × Location) : Token :=
  { string := some r.1
    operator := Char.ofNat 0
    is_identifier := false
    is_number := false
    is_comment := false
    is_directive := false
    location := { r.2 with column := r.2.column - r.1.length } }

/-- The text of the lines after the first, each preceded by its line
feed; the first line's text and the final line feed are added by the
caller. -/
def tailText : List LayLine → String
  | [] => ""
  | l :: ls => "\n" ++ wsText l ++ tailText ls

/-- A one-node heap list for concrete instances: address 0 holds an
all-zero token with NULL links. -/
def dllWitnessList : DTokenList :=
  { heap := fun j =>
      if j = 0 then some { data := emptyToken, prev := none, next := none }
      else none
    front_token := some 0
    back_token := some 0 }

theorem same_line_comm (a b : Location) : same_line a b = same_line b a := by
  simp only [same_line, Bool.and_comm, BEq.comm]

theorem getLast?_none_eq_nil {l : List Token} (h : l.getLast? = none) : l = [] := by
  induction l with
  | nil => rfl
  | cons a as ih =>
    cases as with
    | nil => simp at h
    | cons b bs =>
      rw [List.getLast?_cons_cons] at h
      exact (List.cons_ne_nil b bs (ih h)).elim

theorem dropLast_concat_getLast {l : List Token} {p : Token} (h : l.getLast? = some p) :
    l = l.dropLast ++ [p] := by
  have hne : l ≠ [] := by
    intro hnil
    subst hnil
    simp at h
  have h2 := List.getLast?_eq_getLast l hne
  rw [h] at h2
  have h3 : l.getLast hne = p := by
    injection h2.symm
  rw [← h3]
  exact (List.dropLast_append_getLast hne).symm

/-- C5: the token appended by `insert_token` is flagged `is_directive`
exactly when the token right before it has operator value `#` and no
earlier token of the list lies on the same source line as that `#` token;
the flag is computed once, at insertion time, by `set_token_flags` from
the appended token's predecessors.  The contiguity hypothesis (same-line
runs of the list are contiguous) is what insertion-ordered token lists
satisfy; under it, the code's one-token look-back equals the "no earlier
token on that line" condition. -/
theorem insert_token_is_directive (l : List Token) (t : Token)
    (hcont : linesContiguous l) :
    insert_token l t = l ++ [set_token_flags l.dropLast.getLast? l.getLast? t] ∧
    ((set_token_flags l.dropLast.getLast? l.getLast? t).is_directive = true ↔
      ∃ p, l.getLast? = some p ∧ p.operator = '#' ∧
        ∀ e ∈ l.dropLast, same_line e.location p.location = false) := by
  refine ⟨rfl, ?_⟩
  rcases hl : l.getLast? with _ | p
  · simp [set_token_flags]
  · have hl' : l = l.dropLast ++ [p] := dropLast_concat_getLast hl
    rcases hpp : l.dropLast.getLast? with _ | pp
    · have hdl : l.dropLast = [] := getLast?_none_eq_nil hpp
      simp only [set_token_flags, hdl, hl]
      constructor
      · intro hflag
        refine ⟨p, rfl, ?_, by simp [hdl]⟩
        by_cases hop : p.operator == '#'
        · exact eq_of_beq hop
        · simp [hop] at hflag
      · rintro ⟨p', hp', hop, -⟩
        cases hp'
        simp [hop]
    · have hdl' : l.dropLast = l.dropLast.dropLast ++ [pp] := dropLast_concat_getLast hpp
      simp only [set_token_flags]
      constructor
      · intro hflag
        by_cases hop : p.operator == '#'
        · simp only [hop, if_true, Bool.not_eq_true'] at hflag
          refine ⟨p, rfl, eq_of_beq hop, ?_⟩
          intro e he
          rcases List.mem_append.mp (hdl' ▸ he) with he' | he'
          · cases hb : same_line e.location p.location with
            | false => rfl
            | true =>
              have hsub : List.Sublist [e, pp, p] l := by
                have h1 : List.Sublist [e] l.dropLast.dropLast :=
                  List.singleton_sublist.mpr he'
                have h2 := h1.append (List.Sublist.refl [pp, p])
                rw [hl', hdl']
                simpa [List.append_assoc] using h2
              have hmid := hcont e pp p hsub hb
              rw [same_line_comm] at hmid
              rw [hmid] at hflag
              cases hflag
          · have hepp : e = pp := by simpa using he'
            subst hepp
            rw [same_line_comm]
            exact hflag
        · simp [hop] at hflag
      · rintro ⟨p', hp', hop, hall⟩
        injection hp' with hp'
        subst hp'
        have hppmem : pp ∈ l.dropLast := by rw [hdl']; simp
        have hppline := hall pp hppmem
        rw [same_line_comm] at hppline
        simp [hop, hppline]

/-- C5 witness: a concrete one-token list whose token is a lone `#`, and a
token appended after it; the theorem applies and the appended token is
flagged as a directive. -/
theorem insert_token_is_directive_witness :
    let hashTok : Token :=
      { string := some "#", operator := '#', is_identifier := false, is_number := false,
        is_comment := false, is_directive := false,
        location := { file_name := some (0, "a.c"), line := 1, column := 0 } }
    linesContiguous [hashTok] ∧
    (insert_token [hashTok] (tokAt "include" 1 2) =
        [hashTok] ++ [set_token_flags [hashTok].dropLast.getLast? [hashTok].getLast?
          (tokAt "include" 1 2)] ∧
      ((set_token_flags [hashTok].dropLast.getLast? [hashTok].getLast?
          (tokAt "include" 1 2)).is_directive = true ↔
        ∃ p, [hashTok].getLast? = some p ∧ p.operator = '#' ∧
          ∀ e ∈ [hashTok].dropLast, same_line e.location p.location = false)) := by
  intro hashTok
  have hcont : linesContiguous [hashTok] := by
    intro x y z h _
    have := h.length_le
    simp at this
  exact ⟨hcont, insert_token_is_directive [hashTok] (tokAt "include" 1 2) hcont⟩

theorem comment_flag_matches_text (prev2 prev : Option Token) (s : String)
    (loc : Location) :
    (set_token_flags prev2 prev (new_token s loc)).is_comment =
      commentText (set_token_flags prev2 prev (new_token s loc)).string := by
  simp [set_token_flags, new_token, commentText]

theorem comment_flag_tokenize_go (fuel : Nat) (f : CFile) (loc : Location)
    (acc : List Token)
    (hacc : ∀ x ∈ acc, x.is_comment = commentText x.string) :
    ∀ x ∈ (tokenize_go fuel f loc acc).1, x.is_comment = commentText x.string := by
  induction fuel generalizing f loc acc with
  | zero => simpa [tokenize_go] using hacc
  | succ fuel ih =>
    rw [tokenize_go]
    rcases hrd : f_read_char f loc with ⟨ch, f1, loc1⟩
    cases ch with
    | none => simpa using hacc
    | some c =>
      by_cases hsp : isspace c
      · simp only [hsp, if_true]
        exact ih f1 loc1 acc hacc
      · simp only [hsp, if_false]
        rcases hbr : scan_token fuel f1 loc1 acc c with ⟨s, f2, loc2⟩
        apply ih
        intro x hx
        rcases List.mem_append.mp hx with h | h
        · exact hacc x h
        · have hx2 : x = set_token_flags acc.dropLast.getLast? acc.getLast?
              (new_token s loc2) := by simpa using h
          rw [hx2]
          exact comment_flag_matches_text _ _ _ _

theorem count_comments_eq_countP {l : List Token}
    (h : ∀ x ∈ l, x.is_comment = commentText x.string) :
    count_comments l = l.countP fun t => commentText t.string := by
  suffices hgen : ∀ (l : List Token) (n : Nat),
      (∀ x ∈ l, x.is_comment = commentText x.string) →
      l.foldl (fun n t => if t.is_comment then n + 1 else n) n =
        n + l.countP (fun t => commentText t.string) by
    simpa [count_comments] using hgen l 0 h
  intro l n hl
  induction l generalizing n with
  | nil => simp
  | cons a as ih =>
    have ha := hl a (by simp)
    have has : ∀ x ∈ as, x.is_comment = commentText x.string :=
      fun x hx => hl x (by simp [hx])
    simp only [List.foldl_cons, List.countP_cons]
    rw [ih _ has, ha]
    by_cases hc : commentText a.string = true
    · simp [hc]; omega
    · simp only [Bool.not_eq_true] at hc
      simp [hc]

/-- C6: for every token list produced by tokenizing an input (any fuel,
contents and file identity), `count_comments` equals the number of tokens
whose first two characters are `//` or `/*` — the flag counted is derived
from exactly that text test at insertion. -/
theorem count_comments_counts_comment_text (fuel : Nat) (data : List Char)
    (fid : Nat × String) :
    count_comments (tokenize_file fuel data fid) =
      (tokenize_file fuel data fid).countP fun t => commentText t.string := by
  apply count_comments_eq_countP
  exact comment_flag_tokenize_go fuel
    { data := data, pos := 0 } { file_name := some fid, line := 1, column := 0 } []
    (by intro x hx; cases hx)

/-- C7 counterexample: on a token list whose line numbers decrease (line 2
then line 1), `count_non_empty_lines` reports 1, but two distinct line
numbers appear among the tokens; the function counts increases of the
running maximum line, not distinct lines. -/
theorem count_non_empty_lines_not_distinct :
    count_non_empty_lines [tokAt "a" 2 0, tokAt "b" 1 0] = 1 ∧
    (([tokAt "a" 2 0, tokAt "b" 1 0]).map fun t => t.location.line).dedup.length = 2 := by
  constructor
  · rfl
  · rfl

theorem countP_congr_of_mem {α : Type} {p q : α → Bool} {l : List α}
    (h : ∀ x ∈ l, p x = q x) : l.countP p = l.countP q := by
  induction l with
  | nil => rfl
  | cons a as ih =>
    simp only [List.countP_cons]
    rw [h a (by simp), ih fun x hx => h x (by simp [hx])]

theorem line_fold_sorted (xs : List Int) :
    ∀ (cur : Int) (n : Nat), List.Pairwise (· ≤ ·) xs → (∀ x ∈ xs, cur ≤ x) →
    (xs.foldl (fun (st : Int × Nat) x => if st.1 < x then (x, st.2 + 1) else st)
        (cur, n)).2 =
      n + xs.dedup.countP fun x => decide (cur < x) := by
  induction xs with
  | nil => simp
  | cons t rest ih =>
    intro cur n hpw hle
    have hpw' : List.Pairwise (· ≤ ·) rest := List.Pairwise.of_cons hpw
    have hts : ∀ x ∈ rest, t ≤ x := (List.pairwise_cons.mp hpw).1
    by_cases hct : cur < t
    · simp only [List.foldl_cons, if_pos hct]
      rw [ih t (n + 1) hpw' hts]
      by_cases htr : t ∈ rest
      · rw [List.dedup_cons_of_mem htr]
        have key : ∀ ys : List Int, ys.Nodup → (∀ y ∈ ys, t ≤ y) → t ∈ ys →
            ys.countP (fun x => decide (cur < x)) =
              1 + ys.countP fun x => decide (t < x) := by
          intro ys
          induction ys with
          | nil => intro _ _ hm; cases hm
          | cons y ys ihy =>
            intro hnd hge hmem
            rcases List.mem_cons.mp hmem with heq0 | hmem'
            · have hnot : t ∉ ys := heq0 ▸ (List.nodup_cons.mp hnd).1
              simp only [List.countP_cons, ← heq0]
              have h1 : decide (cur < t) = true := by simpa using hct
              have h2 : decide (t < t) = false := by simp
              rw [h1, h2]
              have heq : ys.countP (fun x => decide (cur < x)) =
                  ys.countP fun x => decide (t < x) := by
                apply countP_congr_of_mem
                intro x hx
                have hge' : t ≤ x := hge x (by simp [hx])
                have hne : x ≠ t := fun h => hnot (h ▸ hx)
                have hlt : t < x := lt_of_le_of_ne hge' (Ne.symm hne)
                simp [hlt, lt_trans hct hlt]
              rw [heq]
              simp
              omega
            · have hyt : y ≠ t := by
                rintro rfl
                exact (List.nodup_cons.mp hnd).1 hmem'
              have hgey : t ≤ y := hge y (by simp)
              have hty : t < y := lt_of_le_of_ne hgey (Ne.symm hyt)
              simp only [List.countP_cons]
              have h1 : decide (cur < y) = true := by simp [lt_trans hct hty]
              have h2 : decide (t < y) = true := by simp [hty]
              rw [h1, h2,
                ihy (List.nodup_cons.mp hnd).2 (fun z hz => hge z (by simp [hz])) hmem']
              simp
              omega
        rw [key rest.dedup (List.nodup_dedup rest)
          (fun y hy => hts y (List.mem_dedup.mp hy)) (List.mem_dedup.mpr htr)]
        omega
      · rw [List.dedup_cons_of_not_mem htr]
        simp only [List.countP_cons]
        have h1 : decide (cur < t) = true := by simpa using hct
        rw [h1]
        have heq : rest.dedup.countP (fun x => decide (cur < x)) =
            rest.dedup.countP fun x => decide (t < x) := by
          apply countP_congr_of_mem
          intro x hx
          have hge' : t ≤ x := hts x (List.mem_dedup.mp hx)
          have hne : x ≠ t := fun h => htr (h ▸ List.mem_dedup.mp hx)
          have hlt : t < x := lt_of_le_of_ne hge' (Ne.symm hne)
          simp [hlt, lt_trans hct hlt]
        rw [heq]
        simp
        omega
    · have hle_t : cur ≤ t := hle t (by simp)
      have ht : t = cur := le_antisymm (not_lt.mp hct) hle_t
      subst ht
      simp only [List.foldl_cons, if_neg hct]
      rw [ih t n hpw' hts]
      by_cases htr : t ∈ rest
      · rw [List.dedup_cons_of_mem htr]
      · rw [List.dedup_cons_of_not_mem htr]
        simp only [List.countP_cons]
        have h2 : decide (t < t) = false := by simp
        rw [h2]
        simp

/-- C7 (amended): for token lists whose line numbers are positive and
non-decreasing along the list — as the tokenizer produces for a single
file, and as holds at the one program point where the function is called —
`count_non_empty_lines` equals the number of distinct line numbers
appearing among the tokens. -/
theorem count_non_empty_lines_distinct_of_sorted (l : List Token)
    (hpw : List.Pairwise (fun a b => a.location.line ≤ b.location.line) l)
    (hpos : ∀ t ∈ l, 0 < t.location.line) :
    count_non_empty_lines l = ((l.map fun t => t.location.line).dedup).length := by
  have hfold := line_fold_sorted (l.map fun t => t.location.line) 0 0
    (by rw [List.pairwise_map]; exact hpw)
    (by
      intro x hx
      rcases List.mem_map.mp hx with ⟨t, ht, rfl⟩
      exact le_of_lt (hpos t ht))
  have hmap : count_non_empty_lines l =
      ((l.map fun t => t.location.line).foldl
        (fun (st : Int × Nat) x => if st.1 < x then (x, st.2 + 1) else st) (0, 0)).2 := by
    simp [count_non_empty_lines, List.foldl_map]
  rw [hmap, hfold]
  have hall : ∀ x ∈ (l.map fun t => t.location.line).dedup, decide ((0 : Int) < x) = true := by
    intro x hx
    rcases List.mem_map.mp (List.mem_dedup.mp hx) with ⟨t, ht, rfl⟩
    simpa using hpos t ht
  rw [List.countP_eq_length.mpr hall]
  omega

/-- C7 witness: the amended theorem applied to a concrete sorted
two-token list. -/
theorem count_non_empty_lines_distinct_of_sorted_witness :
    count_non_empty_lines [tokAt "a" 1 0, tokAt "b" 2 0] =
      (([tokAt "a" 1 0, tokAt "b" 2 0]).map fun t => t.location.line).dedup.length :=
  count_non_empty_lines_distinct_of_sorted _
    (by simp [tokAt]) (by
      intro t ht
      simp only [List.mem_cons, List.not_mem_nil, or_false] at ht
      rcases ht with h | h <;> subst h <;> simp [tokAt])


theorem fgetc_some {f : CFile} {c : Char} (h : f.data.get? f.pos = some c) :
    fgetc f = (some c, { f with pos := f.pos + 1 }) := by
  unfold fgetc
  rw [h]

theorem fgetc_none {f : CFile} (h : f.data.get? f.pos = none) :
    fgetc f = (none, f) := by
  unfold fgetc
  rw [h]

theorem fgetc_at (d : List Char) (p : Nat) {c : Char} (h : d.get? p = some c) :
    fgetc { data := d, pos := p } = (some c, { data := d, pos := p + 1 }) :=
  fgetc_some (f := { data := d, pos := p }) h

theorem fgetc_at_none (d : List Char) (p : Nat) (h : d.get? p = none) :
    fgetc { data := d, pos := p } = (none, { data := d, pos := p }) :=
  fgetc_none (f := { data := d, pos := p }) h

theorem fseekBack1_succ (d : List Char) (p : Nat) :
    fseekBack1 { data := d, pos := p + 1 } = { data := d, pos := p } := by
  simp [fseekBack1]

theorem f_peek_char_eof {f : CFile} (h : f.data.get? f.pos = none) :
    f_peek_char f = (none, f) := by
  simp [f_peek_char, fgetc_none h]

theorem f_peek_char_simple {f : CFile} {c : Char} (h : f.data.get? f.pos = some c)
    (hc : c ≠ '\\') : f_peek_char f = (some c, f) := by
  obtain ⟨d, p⟩ := f
  replace h : d.get? p = some c := h
  simp only [f_peek_char, fgetc_at d p h, if_neg hc, fseekBack1_succ]

theorem f_peek_char_restore (f : CFile)
    (h : f.data.length ≤ f.pos ∨ f.data.get? f.pos ≠ some '\\' ∨
      f.pos + 4 ≤ f.data.length) :
    (f_peek_char f).2 = f := by
  obtain ⟨d, p⟩ := f
  rcases h with h | h | h
  · replace h : d.length ≤ p := h
    rw [f_peek_char_eof (List.get?_eq_none.mpr h)]
  · replace h : d.get? p ≠ some '\\' := h
    rcases hg : d.get? p with _ | c
    · rw [f_peek_char_eof hg]
    · rw [f_peek_char_simple hg (fun hc => h (hc ▸ hg))]
  · replace h : p + 4 ≤ d.length := h
    have h1 : p + 1 < d.length := by omega
    have h2 : p + 2 < d.length := by omega
    have h3 : p + 3 < d.length := by omega
    rcases hg0 : d.get? p with _ | c0
    · rw [f_peek_char_eof hg0]
    by_cases hb : c0 = '\\'
    swap
    · rw [f_peek_char_simple hg0 hb]
    subst hb
    have hg1 := List.get?_eq_get h1
    have hg2 := List.get?_eq_get h2
    have hg3 := List.get?_eq_get h3
    simp only [f_peek_char, fgetc_at d p hg0, fgetc_at d (p + 1) hg1,
      fgetc_at d (p + 2) hg2, fgetc_at d (p + 3) hg3]
    split_ifs <;> simp_all [fseekBack1_succ]

theorem crConvert_fst (ch : Option Char) (f : CFile) :
    (crConvert ch f).1 = crNorm ch := by
  unfold crConvert crNorm
  by_cases h : ch = some '\r'
  · rw [if_pos h, if_pos h]
    rcases hpk : f_peek_char f with ⟨pk, f2⟩
    simp only [hpk]
    by_cases hn : pk = some '\n'
    · rcases hfg : fgetc f2 with ⟨o, f3⟩
      simp [hn, hfg]
    · simp [hn]
  · rw [if_neg h, if_neg h]

theorem f_read_char_fst (f : CFile) (loc : Location) :
    (f_read_char f loc).1 = crNorm (readResolve f).1 := by
  unfold f_read_char
  rcases hrr : readResolve f with ⟨ch, f2⟩
  rcases hcc : crConvert ch f2 with ⟨ch2, f3⟩
  have h := crConvert_fst ch f2
  rw [hcc] at h
  simp [hrr, hcc, h]

theorem readResolve_eq_peek (f : CFile)
    (hsafe : f.data.length ≤ f.pos ∨ f.data.get? f.pos ≠ some '\\' ∨
      (f.pos + 4 ≤ f.data.length ∧
        (f.data.get? (f.pos + 1) ≠ some '\\' ∨ f.pos + 5 ≤ f.data.length))) :
    (readResolve f).1 = (f_peek_char f).1 := by
  obtain ⟨d, p⟩ := f
  rcases hsafe with h | h | h
  · replace h : d.length ≤ p := h
    have hg : d.get? p = none := List.get?_eq_none.mpr h
    rw [f_peek_char_eof hg]
    simp [readResolve, fgetc_at_none d p hg, contTest]
  · replace h : d.get? p ≠ some '\\' := h
    rcases hg : d.get? p with _ | c
    · rw [f_peek_char_eof hg]
      simp [readResolve, fgetc_at_none d p hg, contTest]
    · have hb : c ≠ '\\' := fun hc => h (hc ▸ hg)
      rw [f_peek_char_simple hg hb]
      simp [readResolve, fgetc_at d p hg, contTest, hb]
  · obtain ⟨hlen, hinner⟩ := h
    replace hlen : p + 4 ≤ d.length := hlen
    replace hinner : d.get? (p + 1) ≠ some '\\' ∨ p + 5 ≤ d.length := hinner
    have h1 : p + 1 < d.length := by omega
    have h2 : p + 2 < d.length := by omega
    have h3 : p + 3 < d.length := by omega
    rcases hg0 : d.get? p with _ | c0
    · rw [f_peek_char_eof hg0]
      simp [readResolve, fgetc_at_none d p hg0, contTest]
    by_cases hb : c0 = '\\'
    swap
    · rw [f_peek_char_simple hg0 hb]
      simp [readResolve, fgetc_at d p hg0, contTest, hb]
    subst hb
    have hg1 := List.get?_eq_get h1
    have hg2 := List.get?_eq_get h2
    have hg3 := List.get?_eq_get h3
    simp only [List.get_eq_getElem] at hg1 hg2 hg3
    by_cases hbb : d[p + 1] = '\\'
    · -- second character is a backslash too: the inner peeks of the
      -- continuation test restore the stream and the test, whatever its
      -- outcome, leaves the backslash itself as the read character
      have h5 : p + 5 ≤ d.length := by
        rcases hinner with h' | h'
        · exact absurd (by rw [hg1, hbb]) h'
        · exact h'
      have hres1 : (f_peek_char { data := d, pos := p + 1 }).2 =
          { data := d, pos := p + 1 } := by
        apply f_peek_char_restore
        right; right
        simpa using h5
      have hpeek : f_peek_char { data := d, pos := p } =
          (some '\\', { data := d, pos := p }) := by
        simp only [f_peek_char, fgetc_at d p hg0, fgetc_at d (p + 1) hg1]
        split_ifs <;> simp_all [fseekBack1_succ, hbb]
      rw [hpeek]
      rcases hpk1 : f_peek_char { data := d, pos := p + 1 } with ⟨v1, fx⟩
      have hfx : fx = { data := d, pos := p + 1 } := by
        rw [hpk1] at hres1
        exact hres1
      subst hfx
      have hct : contTest (some '\\') { data := d, pos := p + 1 } =
          ((v1 = some '\n' ∨ v1 = some '\r' : Bool), { data := d, pos := p + 1 }) := by
        unfold contTest
        rw [if_pos rfl]
        simp only [hpk1]
        by_cases hv1 : v1 = some '\n'
        · simp [hv1]
        · simp [hpk1, hv1]
      simp only [readResolve, fgetc_at d p hg0, hct]
      by_cases hcond : v1 = some '\n' ∨ v1 = some '\r'
      · simp only [hcond]
        simp [contElide, fgetc_at d (p + 1) hg1, hbb, fseekBack1_succ]
      · simp only [hcond]
        simp
    · -- second character is not a backslash: the inner peeks just return it
      have hpk1 : f_peek_char { data := d, pos := p + 1 } =
          (some (d[p + 1]), { data := d, pos := p + 1 }) :=
        f_peek_char_simple hg1 hbb
      by_cases hn1 : d[p + 1] = '\n'
      · -- backslash-LF: both sides select the character after the LF
        have hpeek : f_peek_char { data := d, pos := p } =
            (some (d[p + 2]), { data := d, pos := p }) := by
          simp only [f_peek_char, fgetc_at d p hg0, fgetc_at d (p + 1) hg1,
            fgetc_at d (p + 2) hg2]
          split_ifs <;> simp_all [fseekBack1_succ]
        rw [hpeek]
        simp only [readResolve, fgetc_at d p hg0, contTest, if_pos rfl, hpk1, hn1]
        simp [contElide, fgetc_at d (p + 1) hg1, fgetc_at d (p + 2) hg2, hn1]
      · by_cases hr1 : d[p + 1] = '\r'
        · -- backslash-CR (and possibly CRLF)
          by_cases hcrlf : d[p + 2] = '\n'
          · have hpeek : f_peek_char { data := d, pos := p } =
                (some (d[p + 3]), { data := d, pos := p }) := by
              simp only [f_peek_char, fgetc_at d p hg0, fgetc_at d (p + 1) hg1,
                fgetc_at d (p + 2) hg2, fgetc_at d (p + 3) hg3]
              split_ifs <;> simp_all [fseekBack1_succ]
            rw [hpeek]
            simp only [readResolve, fgetc_at d p hg0, contTest, if_pos rfl, hpk1, hn1, hr1]
            simp [contElide, fgetc_at d (p + 1) hg1, fgetc_at d (p + 2) hg2,
              fgetc_at d (p + 3) hg3, hn1, hr1, hcrlf]
          · have hpeek : f_peek_char { data := d, pos := p } =
                (some (d[p + 2]), { data := d, pos := p }) := by
              simp only [f_peek_char, fgetc_at d p hg0, fgetc_at d (p + 1) hg1,
                fgetc_at d (p + 2) hg2]
              split_ifs <;> simp_all [fseekBack1_succ]
            rw [hpeek]
            simp only [readResolve, fgetc_at d p hg0, contTest, if_pos rfl, hpk1, hn1, hr1]
            simp [contElide, fgetc_at d (p + 1) hg1, fgetc_at d (p + 2) hg2,
              hn1, hr1, hcrlf]
        · -- backslash followed by an ordinary character: no continuation
          have hpeek : f_peek_char { data := d, pos := p } =
              (some '\\', { data := d, pos := p }) := by
            simp only [f_peek_char, fgetc_at d p hg0, fgetc_at d (p + 1) hg1]
            split_ifs <;> simp_all [fseekBack1_succ]
          rw [hpeek]
          simp only [readResolve, fgetc_at d p hg0, contTest, if_pos rfl, hpk1]
          simp [hn1, hr1]

/-- C9 counterexample: on a stream whose next character is a carriage
return, `f_peek_char` returns CR but the subsequent `f_read_char` yields
LF (the reader normalises CR/CRLF to LF, the peek does not), so the peeked
character does not equal the character the read yields, contrary to the
claim. -/
theorem f_peek_char_cr_differs_from_read :
    (f_peek_char { data := ['\r'], pos := 0 }).1 = some '\r' ∧
    (f_read_char { data := ['\r'], pos := 0 }
      { file_name := none, line := 1, column := 0 }).1 = some '\n' := by
  constructor
  · rfl
  · rfl

/-- C9 (amended): unless the remaining input begins with a backslash
within four characters of end of stream (or with two backslashes within
five), where the EOF-truncated look-ahead of the C code over-rewinds the
position, `f_peek_char` restores the stream state exactly — it never
touches the location, which it does not even receive — two consecutive
peeks return the same character, and a subsequent `f_read_char` yields
exactly the peeked character up to CR/CRLF-to-LF normalisation (`crNorm`):
equal characters except that a peeked CR is read as LF. -/
theorem f_peek_char_lookahead (f : CFile) (loc : Location)
    (hsafe : f.data.length ≤ f.pos ∨ f.data.get? f.pos ≠ some '\\' ∨
      (f.pos + 4 ≤ f.data.length ∧
        (f.data.get? (f.pos + 1) ≠ some '\\' ∨ f.pos + 5 ≤ f.data.length))) :
    (f_peek_char f).2 = f ∧
    (f_peek_char (f_peek_char f).2).1 = (f_peek_char f).1 ∧
    (f_read_char f loc).1 = crNorm (f_peek_char f).1 := by
  have hrestore : (f_peek_char f).2 = f := by
    apply f_peek_char_restore
    rcases hsafe with h | h | h
    · exact Or.inl h
    · exact Or.inr (Or.inl h)
    · exact Or.inr (Or.inr h.1)
  refine ⟨hrestore, by rw [hrestore], ?_⟩
  rw [f_read_char_fst, readResolve_eq_peek f hsafe]

/-- C9 witness: the amended theorem applied to the concrete stream `"ab"`
at position 0, which satisfies the safety hypothesis. -/
theorem f_peek_char_lookahead_witness :
    (f_peek_char { data := ['a', 'b'], pos := 0 }).2 = { data := ['a', 'b'], pos := 0 } ∧
    (f_peek_char (f_peek_char { data := ['a', 'b'], pos := 0 }).2).1 =
      (f_peek_char { data := ['a', 'b'], pos := 0 }).1 ∧
    (f_read_char { data := ['a', 'b'], pos := 0 }
      { file_name := none, line := 1, column := 0 }).1 =
      crNorm (f_peek_char { data := ['a', 'b'], pos := 0 }).1 :=
  f_peek_char_lookahead { data := ['a', 'b'], pos := 0 }
    { file_name := none, line := 1, column := 0 } (by right; left; decide)


theorem hash_map_get_key_empty (n seed : Nat) (k : String) :
    hash_map_get_key (new_hash_map n seed) k = none := rfl

theorem preprocess_go_nondirective (fs : String → Option (List Token))
    (fl : String) (dm : HashMap) (diags : List String) (acc : List Token)
    (token : Token) (rest : List Token) (tstr : String)
    (hs : token.string = some tstr) (hdir : token.is_directive = false) :
    preprocess_go fs fl dm diags acc (token :: rest) =
      preprocess_go fs fl dm diags
        ((substitute_step dm token tstr rest).1 :: acc)
        (substitute_step dm token tstr rest).2 := by
  cases rest with
  | nil => simp [preprocess_go, hs, hdir]
  | cons a r2 =>
    cases r2 with
    | nil => simp [preprocess_go, hs, hdir]
    | cons b r3 => simp [preprocess_go, hs, hdir]

theorem isEmpty_false_of_ne_nil {B : List Token} (h : B ≠ []) :
    B.isEmpty = false := by
  cases B with
  | nil => exact absurd rfl h
  | cons a b => rfl

theorem preprocess_go_include_step (fs : String → Option (List Token))
    (fl : String) (dm : HashMap) (diags : List String) (a0 : Token)
    (acc2 : List Token) (incT ftok : Token) (rest2 : List Token)
    (fstr : String) (temp : List Token)
    (hincstr : incT.string = some "include") (hincdir : incT.is_directive = true)
    (hfstr : ftok.string = some fstr) (hquote : cGet fstr 0 = '"')
    (hfs : fs (fl ++ stripInclude fstr) = some temp) (htne : temp ≠ []) :
    preprocess_go fs fl dm diags (a0 :: acc2) (incT :: ftok :: rest2) =
      preprocess_go fs fl dm diags
        (spacer_token ftok :: (temp.reverse ++ acc2)) rest2 := by
  cases rest2 with
  | nil =>
    simp [preprocess_go, hincstr, hincdir, hfstr, hquote, hfs,
      isEmpty_false_of_ne_nil htne]
  | cons x r =>
    simp [preprocess_go, hincstr, hincdir, hfstr, hquote, hfs,
      isEmpty_false_of_ne_nil htne]

theorem preprocess_go_include_unresolved_step (fs : String → Option (List Token))
    (fl : String) (dm : HashMap) (diags : List String) (acc : List Token)
    (incT ftok : Token) (rest2 : List Token) (fstr : String)
    (hincstr : incT.string = some "include") (hincdir : incT.is_directive = true)
    (hfstr : ftok.string = some fstr) (hnq : ¬cGet fstr 0 = '"') :
    preprocess_go fs fl dm diags acc (incT :: ftok :: rest2) =
      preprocess_go fs fl dm
        (diags ++ ["Could not find '" ++ fstr ++ "'."])
        (ftok :: incT :: acc) rest2 := by
  cases rest2 with
  | nil => simp [preprocess_go, hincstr, hincdir, hfstr, hnq]
  | cons x r => simp [preprocess_go, hincstr, hincdir, hfstr, hnq]

theorem preprocess_go_define_step (fs : String → Option (List Token))
    (fl : String) (dm : HashMap) (diags : List String) (a0 : Token)
    (acc2 : List Token) (defT nameT t0 : Token) (rest3 : List Token)
    (nstr : String) (w0 : Token) (rem2 : List Token)
    (hdefstr : defT.string = some "define") (hdefdir : defT.is_directive = true)
    (hname : nameT.string = some nstr)
    (hnone : ((t0 :: rest3.takeWhile fun t => same_line t.location t0.location).any
      fun t => t.string.isNone) = false)
    (hrem : rest3.dropWhile (fun t => same_line t.location t0.location) = w0 :: rem2) :
    preprocess_go fs fl dm diags (a0 :: acc2) (defT :: nameT :: t0 :: rest3) =
      preprocess_go fs fl
        (hash_map_insert_key dm nstr
          ((t0 :: rest3.takeWhile fun t => same_line t.location t0.location).foldl
            (fun a t => a ++ t.string.getD "") ""))
        diags (w0 :: acc2) rem2 := by
  simp [preprocess_go, hdefstr, hdefdir, hname, hnone]
  split
  · rename_i heq
    rw [heq] at hrem
    cases hrem
  · rename_i next1 rem2x heq
    rw [heq] at hrem
    injection hrem with h1 h2
    subst h1
    subst h2
    rfl

theorem preprocess_go_plain (fs : String → Option (List Token)) (fl : String)
    (q : List Token) :
    ∀ (dm : HashMap) (diags : List String) (acc rest : List Token),
    (∀ t ∈ q, t.is_directive = false ∧
      ∃ s, t.string = some s ∧ hash_map_get_key dm s = none) →
    preprocess_go fs fl dm diags acc (q ++ rest) =
      preprocess_go fs fl dm diags (q.reverse ++ acc) rest := by
  induction q with
  | nil => intro dm diags acc rest _; rfl
  | cons t q ih =>
    intro dm diags acc rest hq
    obtain ⟨hdir, s, hs, hmiss⟩ := hq t (by simp)
    rw [List.cons_append]
    rw [preprocess_go_nondirective fs fl dm diags acc t (q ++ rest) s hs hdir]
    rw [show substitute_step dm t s (q ++ rest) = (t, q ++ rest) by
      simp [substitute_step, hmiss]]
    rw [ih dm diags (t :: acc) rest (fun x hx => hq x (by simp [hx]))]
    simp

/-- C1 (amended): splicing a resolved, nonempty include.  For an entry
list of the form `p ++ # include "file" ++ s` with no other directives and
a file system that resolves the include to the nonempty token list `B` of
the included file, preprocessing returns exactly
`p ++ B ++ spacer ++ s`: every token of B, in order, where the directive
stood; none of the three directive tokens remains; and the zero-text
spacer carrying the outer file identity and the filename token's line plus
one sits right after the spliced sub-list. -/
theorem preprocess_include_splice
    (fs : String → Option (List Token))
    (p s : List Token) (hashT incT fileT : Token)
    (fstr : String) (B : List Token) (fid : Nat × String)
    (hplainp : ∀ t ∈ p, t.is_directive = false ∧ ∃ st, t.string = some st)
    (hplains : ∀ t ∈ s, t.is_directive = false ∧ ∃ st, t.string = some st)
    (hhashdir : hashT.is_directive = false) (hhashstr : ∃ st, hashT.string = some st)
    (hincdir : incT.is_directive = true) (hincstr : incT.string = some "include")
    (hfilestr : fileT.string = some fstr) (hquote : cGet fstr 0 = '"')
    (hfile : ∀ t ∈ p ++ hashT :: incT :: fileT :: s,
      t.location.file_name = some fid)
    (hfs : fs (dirOf fid.2 ++ stripInclude fstr) = some B)
    (hB : B ≠ []) :
    preprocess_token_list fs (p ++ hashT :: incT :: fileT :: s) =
      .ok (p ++ B ++ spacer_token fileT :: s,
        new_hash_map 0xffff 0xb5c236b5, []) := by
  obtain ⟨st0, hst0⟩ := hhashstr
  have hwrap : preprocess_token_list fs (p ++ hashT :: incT :: fileT :: s) =
      preprocess_go fs (dirOf fid.2) (new_hash_map 0xffff 0xb5c236b5) [] []
        (p ++ hashT :: incT :: fileT :: s) := by
    rcases hA : p ++ hashT :: incT :: fileT :: s with _ | ⟨front, rest⟩
    · exact absurd hA (by simp)
    · have hfront : front.location.file_name = some fid :=
        hfile front (by rw [hA]; simp)
      rw [← hA]
      rw [hA]
      simp [preprocess_token_list, hfront]
  rw [hwrap]
  rw [preprocess_go_plain fs (dirOf fid.2) p _ _ _ _
    (fun t ht => ⟨(hplainp t ht).1,
      ((hplainp t ht).2).elim fun st hst => ⟨st, hst, hash_map_get_key_empty _ _ _⟩⟩)]
  rw [show hashT :: incT :: fileT :: s = [hashT] ++ incT :: fileT :: s from rfl]
  rw [preprocess_go_plain fs (dirOf fid.2) [hashT] _ _ _ _
    (by
      intro t ht
      simp only [List.mem_singleton] at ht
      subst ht
      exact ⟨hhashdir, st0, hst0, hash_map_get_key_empty _ _ _⟩)]
  rw [show ([hashT].reverse ++ (p.reverse ++ []) : List Token) =
    hashT :: (p.reverse ++ []) from rfl]
  rw [preprocess_go_include_step fs (dirOf fid.2) _ _ hashT _ incT fileT s
    fstr B hincstr hincdir hfilestr hquote hfs hB]
  rw [show s = s ++ [] from (List.append_nil s).symm]
  rw [preprocess_go_plain fs (dirOf fid.2) s _ _ _ _
    (fun t ht => ⟨(hplains t ht).1,
      ((hplains t ht).2).elim fun st hst => ⟨st, hst, hash_map_get_key_empty _ _ _⟩⟩)]
  rw [preprocess_go.eq_1]
  simp


/-- C1 counterexample: when the included file resolves to an empty token
list, the C splice dereferences the NULL `back_token` of the empty
temporary list and crashes (modelled as `nullDeref`), so splicing does not
happen as claimed for an empty included file. -/
theorem preprocess_include_empty_crash :
    preprocess_token_list (fun _ => some ([] : List Token))
      [{ tokAt "#" 1 0 with operator := '#' },
       { tokAt "include" 1 2 with is_directive := true },
       tokAt "\"b.c\"" 1 10] = .error .nullDeref := by
  simp [preprocess_token_list, preprocess_go, tokAt, substitute_step,
    hash_map_get_key, new_hash_map, cGet, List.getD]

/-- C1 witness: the amended theorem applied to a concrete entry list
`# include "b.c"` with a one-token included file. -/
theorem preprocess_include_splice_witness :
    preprocess_token_list
      (fun n => if n = "a.cb.c" then some [tokAt "int" 1 3] else none)
      ([] ++ { tokAt "#" 1 0 with operator := '#' } ::
        { tokAt "include" 1 2 with is_directive := true } ::
        tokAt "\"b.c\"" 1 10 :: [tokAt "x" 2 0]) =
      .ok ([] ++ [tokAt "int" 1 3] ++
        spacer_token (tokAt "\"b.c\"" 1 10) :: [tokAt "x" 2 0],
        new_hash_map 0xffff 0xb5c236b5, []) :=
  preprocess_include_splice
    (fun n => if n = "a.cb.c" then some [tokAt "int" 1 3] else none)
    [] [tokAt "x" 2 0]
    { tokAt "#" 1 0 with operator := '#' }
    { tokAt "include" 1 2 with is_directive := true }
    (tokAt "\"b.c\"" 1 10) "\"b.c\"" [tokAt "int" 1 3] (0, "a.c")
    (by simp)
    (by intro t ht; simp only [List.mem_singleton] at ht; subst ht
        exact ⟨rfl, "x", rfl⟩)
    rfl ⟨"#", rfl⟩ rfl rfl rfl (by decide)
    (by decide)
    (by decide) (by decide)

theorem shift_line_spec (loc : Location) (fix : Int) :
    ∀ rest : List Token,
    (∀ i j : Nat, i ≤ j → ∀ ti tj : Token, rest.get? i = some ti →
      rest.get? j = some tj → same_line loc tj.location = true →
      same_line loc ti.location = true) →
    ∀ j : Nat, (shift_line loc fix rest).get? j =
      (rest.get? j).map fun t =>
        if same_line loc t.location then
          { t with location := { t.location with column := t.location.column - fix } }
        else t := by
  intro rest
  induction rest with
  | nil => intro _ j; simp [shift_line]
  | cons t ts ih =>
    intro hmono j
    by_cases hs : same_line loc t.location = true
    · have hmono' : ∀ i j : Nat, i ≤ j → ∀ ti tj : Token, ts.get? i = some ti →
          ts.get? j = some tj → same_line loc tj.location = true →
          same_line loc ti.location = true := by
        intro i j hij ti tj hti htj hsame
        exact hmono (i + 1) (j + 1) (by omega) ti tj (by simpa using hti)
          (by simpa using htj) hsame
      cases j with
      | zero => simp [shift_line, hs]
      | succ j =>
        simp only [shift_line, if_pos hs, List.get?_cons_succ]
        exact ih hmono' j
    · cases j with
      | zero => simp [shift_line, hs]
      | succ j =>
        simp only [shift_line, if_neg hs, List.get?_cons_succ]
        rcases hg : ts.get? j with _ | x
        · simp
        · have hnx : same_line loc x.location = false := by
            cases hb : same_line loc x.location
            · rfl
            · exact absurd (hmono 0 (j + 1) (by omega) t x rfl (by simpa using hg) hb)
                hs
          simp [hnx]

/-- C2: on a non-directive token whose text hits the define table, the
driver replaces the token's text in place (same location, same flags, no
fresh token: the rewritten tail has the same length), shifts the column of
every following token on the same line by exactly the replacement length
minus the old length, leaves the columns of tokens on other lines
unchanged, and continues with exactly that substitution — the driver
equation in the last conjunct.  The hypothesis `hmono` says the tokens of
the tail sharing the substituted token's line form a prefix, which holds
for token lists in source order (the code stops shifting at the first
token on a different line). -/
theorem substitute_replaces_and_shifts
    (fs : String → Option (List Token)) (fl : String)
    (dm : HashMap) (diags : List String) (acc : List Token)
    (token : Token) (tstr repl : String) (rest : List Token)
    (hstr : token.string = some tstr)
    (hdir : token.is_directive = false)
    (hhit : hash_map_get_key dm tstr = some repl)
    (hmono : ∀ i j : Fin rest.length, i ≤ j →
      same_line token.location (rest.get j).location = true →
      same_line token.location (rest.get i).location = true) :
    (substitute_step dm token tstr rest).1 = { token with string := some repl } ∧
    (substitute_step dm token tstr rest).2.length = rest.length ∧
    (∀ j : Nat, (substitute_step dm token tstr rest).2.get? j =
      (rest.get? j).map fun t =>
        if same_line token.location t.location then
          { t with location := { t.location with
              column := t.location.column + ((repl.length : Int) - (tstr.length : Int)) } }
        else t) ∧
    preprocess_go fs fl dm diags acc (token :: rest) =
      preprocess_go fs fl dm diags
        ((substitute_step dm token tstr rest).1 :: acc)
        (substitute_step dm token tstr rest).2 := by
  have hmono' : ∀ i j : Nat, i ≤ j → ∀ ti tj : Token, rest.get? i = some ti →
      rest.get? j = some tj → same_line token.location tj.location = true →
      same_line token.location ti.location = true := by
    intro i j hij ti tj hti htj hsame
    have hj : j < rest.length := by
      rcases List.get?_eq_some.mp htj with ⟨h, _⟩
      exact h
    have hi : i < rest.length := by omega
    have h1 : rest.get ⟨i, hi⟩ = ti := by
      rcases List.get?_eq_some.mp hti with ⟨h, hh⟩
      exact hh
    have h2 : rest.get ⟨j, hj⟩ = tj := by
      rcases List.get?_eq_some.mp htj with ⟨h, hh⟩
      exact hh
    have := hmono ⟨i, hi⟩ ⟨j, hj⟩ hij (by rw [h2]; exact hsame)
    rw [h1] at this
    exact this
  have hstep : substitute_step dm token tstr rest =
      ({ token with string := some repl },
        shift_line token.location ((tstr.length : Int) - (repl.length : Int)) rest) := by
    simp [substitute_step, hhit]
  refine ⟨by rw [hstep], ?_, ?_, ?_⟩
  · rw [hstep]
    have hlen : ∀ (l : List Token), (shift_line token.location
        ((tstr.length : Int) - (repl.length : Int)) l).length = l.length := by
      intro l
      induction l with
      | nil => rfl
      | cons a as ihl =>
        by_cases ha : same_line token.location a.location <;>
          simp [shift_line, ha, ihl]
    exact hlen rest
  · intro j
    rw [hstep]
    rw [shift_line_spec token.location ((tstr.length : Int) - (repl.length : Int))
      rest hmono' j]
    rcases rest.get? j with _ | t
    · rfl
    · by_cases ht : same_line token.location t.location = true
      · have hcol : t.location.column - ((tstr.length : Int) - (repl.length : Int)) =
            t.location.column + ((repl.length : Int) - (tstr.length : Int)) := by
          ring
        simp [ht, hcol]
      · simp [ht]
  · exact preprocess_go_nondirective fs fl dm diags acc token rest tstr hstr hdir


/-- C2 witness: a table defining `FOO` as `bar`, a `FOO` token on line 1,
and a tail with one token on the same line and one on the next. -/
theorem substitute_replaces_and_shifts_witness :
    (substitute_step
      (hash_map_insert_key (new_hash_map 0xffff 0xb5c236b5) "FOO" "bar")
      (tokAt "FOO" 1 5) "FOO" [tokAt "x" 1 7, tokAt "y" 2 0]).1 =
      { tokAt "FOO" 1 5 with string := some "bar" } ∧
    (substitute_step
      (hash_map_insert_key (new_hash_map 0xffff 0xb5c236b5) "FOO" "bar")
      (tokAt "FOO" 1 5) "FOO" [tokAt "x" 1 7, tokAt "y" 2 0]).2.length =
      [tokAt "x" 1 7, tokAt "y" 2 0].length ∧
    (∀ j : Nat, ((substitute_step
      (hash_map_insert_key (new_hash_map 0xffff 0xb5c236b5) "FOO" "bar")
      (tokAt "FOO" 1 5) "FOO" [tokAt "x" 1 7, tokAt "y" 2 0]).2.get? j) =
      (([tokAt "x" 1 7, tokAt "y" 2 0].get? j)).map fun t =>
        if same_line (tokAt "FOO" 1 5).location t.location then
          { t with location := { t.location with
              column := t.location.column +
                ((("bar".length : Int)) - (("FOO".length : Int))) } }
        else t) ∧
    preprocess_go (fun _ => none) "" 
      (hash_map_insert_key (new_hash_map 0xffff 0xb5c236b5) "FOO" "bar") [] []
      (tokAt "FOO" 1 5 :: [tokAt "x" 1 7, tokAt "y" 2 0]) =
      preprocess_go (fun _ => none) ""
        (hash_map_insert_key (new_hash_map 0xffff 0xb5c236b5) "FOO" "bar") []
        ((substitute_step
          (hash_map_insert_key (new_hash_map 0xffff 0xb5c236b5) "FOO" "bar")
          (tokAt "FOO" 1 5) "FOO" [tokAt "x" 1 7, tokAt "y" 2 0]).1 :: [])
        (substitute_step
          (hash_map_insert_key (new_hash_map 0xffff 0xb5c236b5) "FOO" "bar")
          (tokAt "FOO" 1 5) "FOO" [tokAt "x" 1 7, tokAt "y" 2 0]).2 :=
  substitute_replaces_and_shifts (fun _ => none) ""
    (hash_map_insert_key (new_hash_map 0xffff 0xb5c236b5) "FOO" "bar")
    [] [] (tokAt "FOO" 1 5) "FOO" "bar" [tokAt "x" 1 7, tokAt "y" 2 0]
    rfl rfl rfl (by decide)

theorem preprocess_token_list_go (fs : String → Option (List Token))
    (l : List Token) (fid : Nat × String) (hne : l ≠ [])
    (hfile : ∀ t ∈ l, t.location.file_name = some fid) :
    preprocess_token_list fs l =
      preprocess_go fs (dirOf fid.2) (new_hash_map 0xffff 0xb5c236b5) [] [] l := by
  rcases hA : l with _ | ⟨front, rest⟩
  · exact absurd hA hne
  · have hfront : front.location.file_name = some fid :=
      hfile front (by rw [hA]; simp)
    simp [preprocess_token_list, hfront]

theorem takeWhile_append_block (pred : Token → Bool) (l1 : List Token) (w : Token)
    (l2 : List Token) (h1 : ∀ t ∈ l1, pred t = true) (hw : pred w = false) :
    (l1 ++ w :: l2).takeWhile pred = l1 ∧
    (l1 ++ w :: l2).dropWhile pred = w :: l2 := by
  induction l1 with
  | nil => simp [List.takeWhile_cons, List.dropWhile_cons, hw]
  | cons a l ih =>
    have ha := h1 a (by simp)
    obtain ⟨ht, hd⟩ := ih fun t htm => h1 t (by simp [htm])
    constructor
    · simp [List.takeWhile_cons, ha, ht]
    · simp [List.dropWhile_cons, ha, hd]

theorem any_string_isNone_false {l : List Token}
    (h : ∀ t ∈ l, t.string.isNone = false) :
    (l.any fun t => t.string.isNone) = false := by
  induction l with
  | nil => rfl
  | cons a as ih =>
    simp only [List.any_cons, h a (by simp), Bool.false_or]
    exact ih fun t ht => h t (by simp [ht])

/-- C3 (amended): recording an object-like define.  For an entry list
`p ++ # define name ++ replacement-run ++ w0 :: wtail` where the
replacement run is the nonempty group of tokens on the first replacement
token's line, at least one token (`w0`, on another line) follows it, and
nothing else triggers the table, preprocessing: records in the define
table, with overwrite-on-insert, the name mapped to the concatenation of
the replacement tokens' texts, in order, with no separators; removes the
consumed replacement tokens; and deletes the 3-token `# define name`
window — the output list is exactly `p ++ w0 :: wtail`. -/
theorem preprocess_define_records
    (fs : String → Option (List Token))
    (p : List Token) (hashT defT nameT r0 : Token)
    (rtail : List Token) (w0 : Token) (wtail : List Token)
    (nstr : String) (fid : Nat × String)
    (hplainp : ∀ t ∈ p, t.is_directive = false ∧ ∃ st, t.string = some st)
    (hhashdir : hashT.is_directive = false) (hhashstr : ∃ st, hashT.string = some st)
    (hdefdir : defT.is_directive = true) (hdefstr : defT.string = some "define")
    (hname : nameT.string = some nstr)
    (hline : ∀ t ∈ rtail, same_line t.location r0.location = true)
    (hrstr : ∀ t ∈ r0 :: rtail, t.string.isNone = false)
    (hw0 : same_line w0.location r0.location = false)
    (hwtail : ∀ t ∈ wtail, t.is_directive = false ∧ ∃ st, t.string = some st ∧
      hash_map_get_key (hash_map_insert_key (new_hash_map 0xffff 0xb5c236b5) nstr
        ((r0 :: rtail).foldl (fun a t => a ++ t.string.getD "") "")) st = none)
    (hfile : ∀ t ∈ p ++ hashT :: defT :: nameT :: r0 :: (rtail ++ w0 :: wtail),
      t.location.file_name = some fid) :
    preprocess_token_list fs
      (p ++ hashT :: defT :: nameT :: r0 :: (rtail ++ w0 :: wtail)) =
      .ok (p ++ w0 :: wtail,
        hash_map_insert_key (new_hash_map 0xffff 0xb5c236b5) nstr
          ((r0 :: rtail).foldl (fun a t => a ++ t.string.getD "") ""), []) := by
  obtain ⟨st0, hst0⟩ := hhashstr
  rw [preprocess_token_list_go fs _ fid (by simp) hfile]
  rw [preprocess_go_plain fs (dirOf fid.2) p _ _ _ _
    (fun t ht => ⟨(hplainp t ht).1,
      ((hplainp t ht).2).elim fun st hst => ⟨st, hst, hash_map_get_key_empty _ _ _⟩⟩)]
  rw [show hashT :: defT :: nameT :: r0 :: (rtail ++ w0 :: wtail) =
    [hashT] ++ defT :: nameT :: r0 :: (rtail ++ w0 :: wtail) from rfl]
  rw [preprocess_go_plain fs (dirOf fid.2) [hashT] _ _ _ _
    (by
      intro t ht
      simp only [List.mem_singleton] at ht
      subst ht
      exact ⟨hhashdir, st0, hst0, hash_map_get_key_empty _ _ _⟩)]
  obtain ⟨htake, hdrop⟩ := takeWhile_append_block
    (fun t => same_line t.location r0.location) rtail w0 wtail hline hw0
  have hnone : ((r0 :: (rtail ++ w0 :: wtail).takeWhile
      fun t => same_line t.location r0.location).any fun t => t.string.isNone)
      = false := by
    rw [htake]
    exact any_string_isNone_false hrstr
  rw [show ([hashT].reverse ++ (p.reverse ++ []) : List Token) =
    hashT :: (p.reverse ++ []) from rfl]
  rw [preprocess_go_define_step fs (dirOf fid.2) _ _ hashT _ defT nameT r0
    (rtail ++ w0 :: wtail) nstr w0 wtail hdefstr hdefdir hname hnone hdrop]
  rw [htake]
  rw [show wtail = wtail ++ [] from (List.append_nil wtail).symm]
  rw [preprocess_go_plain fs (dirOf fid.2) wtail _ _ _ _ hwtail]
  rw [preprocess_go.eq_1]
  simp

/-- C3 counterexample: a define whose replacement run reaches the end of
the file makes the C consumption loop walk off the list and dereference a
NULL token (modelled as `nullDeref`), so the claimed recording does not
happen for a define on the last line of the file. -/
theorem preprocess_define_eof_crash :
    preprocess_token_list (fun _ => none)
      [{ tokAt "#" 1 0 with operator := '#' },
       { tokAt "define" 1 2 with is_directive := true },
       tokAt "N" 1 9, tokAt "5" 1 11] = .error .nullDeref := by
  simp [preprocess_token_list, preprocess_go, tokAt, substitute_step,
    hash_map_get_key, new_hash_map]

/-- C3 witness: `# define N 5` followed by a token on the next line; the
record `N ↦ "5"` is inserted and the directive line disappears. -/
theorem preprocess_define_records_witness :
    preprocess_token_list (fun _ => none)
      ([] ++ { tokAt "#" 1 0 with operator := '#' } ::
        { tokAt "define" 1 2 with is_directive := true } ::
        tokAt "N" 1 9 :: tokAt "5" 1 11 :: ([] ++ tokAt "int" 2 0 :: [])) =
      .ok ([] ++ tokAt "int" 2 0 :: [],
        hash_map_insert_key (new_hash_map 0xffff 0xb5c236b5) "N"
          (([tokAt "5" 1 11]).foldl (fun a t => a ++ t.string.getD "") ""), []) :=
  preprocess_define_records (fun _ => none) []
    { tokAt "#" 1 0 with operator := '#' }
    { tokAt "define" 1 2 with is_directive := true }
    (tokAt "N" 1 9) (tokAt "5" 1 11) [] (tokAt "int" 2 0) [] "N" (0, "a.c")
    (by simp) rfl ⟨"#", rfl⟩ rfl rfl rfl
    (by simp) (by decide) (by decide) (by simp) (by decide)

/-- C8 counterexample: a quoted include whose resolved file cannot be
opened does not continue — the C code calls `tokenize_file`, which prints
a diagnostic and exits the process (modelled as the `fatalOpen` error), so
processing of the rest of the file never happens, contrary to the claim. -/
theorem preprocess_include_missing_file_fatal :
    preprocess_token_list (fun _ => none)
      [{ tokAt "#" 1 0 with operator := '#' },
       { tokAt "include" 1 2 with is_directive := true },
       tokAt "\"b.c\"" 1 10] =
      .error (.fatalOpen (dirOf "a.c" ++ stripInclude "\"b.c\"")) ∧
    dirOf "a.c" ++ stripInclude "\"b.c\"" = "a.cb.c" := by
  constructor
  · simp [preprocess_token_list, preprocess_go, tokAt, substitute_step,
      hash_map_get_key, new_hash_map, cGet, List.getD]
  · decide

/-- C8 (amended): when the token after `include` is not a quoted literal,
the driver emits the `Could not find` diagnostic, leaves the directive's
tokens in place, and continues processing the rest of the file — the
output list is the input list unchanged and the diagnostic is recorded;
nothing is dropped and the process does not terminate.  When the quoted
target's file is missing, however, the process terminates fatally (see the
counterexample). -/
theorem preprocess_include_unresolved_continues
    (fs : String → Option (List Token))
    (p s : List Token) (hashT incT nqT : Token) (qstr : String)
    (fid : Nat × String)
    (hplainp : ∀ t ∈ p, t.is_directive = false ∧ ∃ st, t.string = some st)
    (hplains : ∀ t ∈ s, t.is_directive = false ∧ ∃ st, t.string = some st)
    (hhashdir : hashT.is_directive = false) (hhashstr : ∃ st, hashT.string = some st)
    (hincdir : incT.is_directive = true) (hincstr : incT.string = some "include")
    (hq : nqT.string = some qstr) (hnq : ¬cGet qstr 0 = '"')
    (hfile : ∀ t ∈ p ++ hashT :: incT :: nqT :: s,
      t.location.file_name = some fid) :
    preprocess_token_list fs (p ++ hashT :: incT :: nqT :: s) =
      .ok (p ++ hashT :: incT :: nqT :: s, new_hash_map 0xffff 0xb5c236b5,
        ["Could not find '" ++ qstr ++ "'."]) := by
  obtain ⟨st0, hst0⟩ := hhashstr
  rw [preprocess_token_list_go fs _ fid (by simp) hfile]
  rw [preprocess_go_plain fs (dirOf fid.2) p _ _ _ _
    (fun t ht => ⟨(hplainp t ht).1,
      ((hplainp t ht).2).elim fun st hst => ⟨st, hst, hash_map_get_key_empty _ _ _⟩⟩)]
  rw [show hashT :: incT :: nqT :: s = [hashT] ++ incT :: nqT :: s from rfl]
  rw [preprocess_go_plain fs (dirOf fid.2) [hashT] _ _ _ _
    (by
      intro t ht
      simp only [List.mem_singleton] at ht
      subst ht
      exact ⟨hhashdir, st0, hst0, hash_map_get_key_empty _ _ _⟩)]
  rw [preprocess_go_include_unresolved_step fs (dirOf fid.2) _ _ _ incT nqT s
    qstr hincstr hincdir hq hnq]
  rw [show s = s ++ [] from (List.append_nil s).symm]
  rw [preprocess_go_plain fs (dirOf fid.2) s _ _ _ _
    (fun t ht => ⟨(hplains t ht).1,
      ((hplains t ht).2).elim fun st hst => ⟨st, hst, hash_map_get_key_empty _ _ _⟩⟩)]
  rw [preprocess_go.eq_1]
  simp

/-- C8 witness: `# include <x>` (not a quoted literal) followed by one
more token; the diagnostic is emitted, the tokens stay, processing
continues to the end. -/
theorem preprocess_include_unresolved_continues_witness :
    preprocess_token_list (fun _ => none)
      ([] ++ { tokAt "#" 1 0 with operator := '#' } ::
        { tokAt "include" 1 2 with is_directive := true } ::
        tokAt "<x>" 1 10 :: [tokAt "int" 2 0]) =
      .ok ([] ++ { tokAt "#" 1 0 with operator := '#' } ::
        { tokAt "include" 1 2 with is_directive := true } ::
        tokAt "<x>" 1 10 :: [tokAt "int" 2 0],
        new_hash_map 0xffff 0xb5c236b5,
        ["Could not find '" ++ "<x>" ++ "'."]) :=
  preprocess_include_unresolved_continues (fun _ => none) [] [tokAt "int" 2 0]
    { tokAt "#" 1 0 with operator := '#' }
    { tokAt "include" 1 2 with is_directive := true }
    (tokAt "<x>" 1 10) "<x>" (0, "a.c")
    (by simp)
    (by intro t ht; simp only [List.mem_singleton] at ht; subst ht
        exact ⟨rfl, "int", rfl⟩)
    rfl ⟨"#", rfl⟩ rfl rfl rfl (by decide) (by decide)


theorem mem_of_represents {l : DTokenList} {ids : List Nat}
    (hrep : represents l ids) {i : Nat} (hmem : i ∈ ids) :
    ∃ n, l.heap i = some n := by
  obtain ⟨k, hk⟩ := List.mem_iff_get.mp hmem
  obtain ⟨n, hn, -, -⟩ := hrep.2.2 k.1 k.2
  refine ⟨n, ?_⟩
  rw [show (⟨k.1, k.2⟩ : Fin ids.length) = k from rfl, hk] at hn
  exact hn

theorem not_mem_of_heap_none {l : DTokenList} {ids : List Nat}
    (hrep : represents l ids) {i : Nat} (hnone : l.heap i = none) :
    i ∉ ids := by
  intro hmem
  obtain ⟨n, hn⟩ := mem_of_represents hrep hmem
  rw [hnone] at hn
  cases hn

theorem represents_insert (l : DTokenList) (ids : List Nat) (i : Nat) (t : Token)
    (hrep : represents l ids) (hnodup : ids.Nodup) (hfresh : l.heap i = none) :
    represents (insert_token_heap l i t) (ids ++ [i]) := by
  obtain ⟨hfront, hback, hnodes⟩ := hrep
  have hnotmem : i ∉ ids := not_mem_of_heap_none ⟨hfront, hback, hnodes⟩ hfresh
  have hif : (insert_token_heap l i t).heap i = some
      { data := set_token_flags
          (heapToken l.heap (l.back_token.bind fun j => (l.heap j).bind (·.prev)))
          (heapToken l.heap l.back_token) t,
        prev := l.back_token, next := none } := by
    simp [insert_token_heap]
  rcases ids with _ | ⟨x, xs⟩
  · refine ⟨?_, ?_, ?_⟩
    · simp [insert_token_heap, hfront]
    · simp [insert_token_heap]
    · intro k hk
      have hk1 : k < 1 := by simpa using hk
      interval_cases k
      refine ⟨_, (by rw [show (([] ++ [i] : List Nat)).get ⟨0, hk⟩ = i from rfl]; exact hif), ?_, ?_⟩
      · change l.back_token = _
        rw [hback]
        rfl
      · change (none : Option Nat) = _
        rfl
  · have hf : l.front_token = some x := by simpa using hfront
    have hLne : (x :: xs : List Nat) ≠ [] := by simp
    set b := (x :: xs).getLast hLne with hbdef
    have hb : (x :: xs).getLast? = some b := List.getLast?_eq_getLast _ hLne
    have hbk : l.back_token = some b := by rw [hback, hb]
    have hbget : (x :: xs).get? ((x :: xs).length - 1) = some b := by
      rw [List.getLast?_eq_get?] at hb
      exact hb
    have hbmem : b ∈ (x :: xs : List Nat) := List.getLast_mem hLne
    have hb_ne : ¬b = i := fun h => hnotmem (h ▸ hbmem)
    have hlen : (x :: xs : List Nat).length = xs.length + 1 := by simp
    refine ⟨?_, ?_, ?_⟩
    · simp [insert_token_heap, hf]
    · rw [List.getLast?_concat]
      simp [insert_token_heap]
    · intro k hk
      have hk2 : k < xs.length + 2 := by simpa using hk
      by_cases hkL : k < (x :: xs : List Nat).length
      · -- an old node of the list
        have hgetk : ((x :: xs) ++ [i]).get ⟨k, hk⟩ = (x :: xs).get ⟨k, hkL⟩ :=
          List.get_append k hkL
        obtain ⟨n, hn, hprev, hnext⟩ := hnodes k hkL
        have haddrmem : (x :: xs).get ⟨k, hkL⟩ ∈ (x :: xs) := List.get_mem _ _ _
        have haddr_ne : ¬((x :: xs).get ⟨k, hkL⟩ = i) := by
          intro h
          exact hnotmem (h ▸ haddrmem)
        by_cases hlast : k = (x :: xs : List Nat).length - 1
        · -- the old back node: its next pointer is repointed to the new node
          have haddr_b : (x :: xs).get ⟨k, hkL⟩ = b := by
            have h2 := hbget
            rw [← hlast, List.get?_eq_get hkL] at h2
            exact Option.some_injective _ h2
          rw [haddr_b] at hn
          refine ⟨{ n with next := some i }, ?_, ?_, ?_⟩
          · simp only [insert_token_heap, hf, hbk]
            rw [hgetk, haddr_b]
            simp [hb_ne, hn]
          · change n.prev = _
            rw [hprev]
            rcases Nat.eq_zero_or_pos k with h0 | h0
            · simp [h0]
            · rw [if_neg (by omega : ¬k = 0), if_neg (by omega : ¬k = 0)]
              rw [List.get?_append (by omega : k - 1 < (x :: xs : List Nat).length)]
          · change some i = _
            rw [show k + 1 = (x :: xs : List Nat).length by
              (rw [hlen]; rw [hlen] at hlast; omega)]
            rw [List.get?_concat_length]
        · -- an interior old node: untouched
          have haddr_nb : ¬((x :: xs).get ⟨k, hkL⟩ = b) := by
            intro h
            have h2 : (x :: xs).get? k = some b := by
              rw [List.get?_eq_get hkL, h]
            exact hlast (List.get?_inj hkL hnodup (h2.trans hbget.symm))
          refine ⟨n, ?_, ?_, ?_⟩
          · simp only [insert_token_heap, hf, hbk]
            rw [hgetk]
            simp only [haddr_ne, if_false, haddr_nb]
            exact hn
          · rw [hprev]
            rcases Nat.eq_zero_or_pos k with h0 | h0
            · simp [h0]
            · rw [if_neg (by omega : ¬k = 0), if_neg (by omega : ¬k = 0)]
              rw [List.get?_append (by omega : k - 1 < (x :: xs : List Nat).length)]
          · rw [hnext]
            have hk1 : k + 1 < (x :: xs : List Nat).length := by
              rw [hlen]
              rw [hlen] at hkL hlast
              omega
            rw [List.get?_append hk1]
      · -- the fresh node at the back
        have hkeq : k = xs.length + 1 := by
          rw [hlen] at hkL
          omega
        have hgetk : ((x :: xs) ++ [i]).get ⟨k, hk⟩ = i := by
          have h1 : ((x :: xs) ++ [i]).get? k = some i := by
            rw [show k = ((x :: xs) : List Nat).length by rw [hlen]; omega]
            exact List.get?_concat_length _ _
          rw [List.get?_eq_get hk] at h1
          exact Option.some_injective _ h1
        refine ⟨_, by rw [hgetk]; exact hif, ?_, ?_⟩
        · change l.back_token = _
          rw [hbk]
          rw [if_neg (by omega : ¬k = 0)]
          rw [show k - 1 = (x :: xs : List Nat).length - 1 by rw [hlen]; omega]
          rw [List.get?_append (by rw [hlen]; omega :
            (x :: xs : List Nat).length - 1 < (x :: xs : List Nat).length)]
          exact hbget.symm
        · change (none : Option Nat) = _
          rw [List.get?_eq_none.mpr (by simp [hlen]; omega :
            ((x :: xs) ++ [i] : List Nat).length ≤ k + 1)]


theorem get?_zero_head? {α : Type _} (v : List α) : v.get? 0 = v.head? := by
  cases v <;> rfl

theorem relinkNext_apply_ne (h : Nat → Option DNode) (p nx : Option Nat) (j : Nat)
    (hj : ¬some j = p) : relinkNext h p nx j = h j := by
  rcases p with _ | pid
  · rfl
  · show (if j = pid then (h pid).map (fun n : DNode => { n with next := nx })
      else h j) = h j
    rw [if_neg (show ¬j = pid from fun h2 => hj (by rw [h2]))]

theorem relinkNext_apply_at (h : Nat → Option DNode) (pid : Nat) (nx : Option Nat) :
    relinkNext h (some pid) nx pid =
      (h pid).map fun n : DNode => { n with next := nx } := by
  show (if pid = pid then _ else _) = _
  rw [if_pos rfl]

theorem relinkPrev_apply_ne (h : Nat → Option DNode) (nx p : Option Nat) (j : Nat)
    (hj : ¬some j = nx) : relinkPrev h nx p j = h j := by
  rcases nx with _ | nid
  · rfl
  · show (if j = nid then (h nid).map (fun n : DNode => { n with prev := p })
      else h j) = h j
    rw [if_neg (show ¬j = nid from fun h2 => hj (by rw [h2]))]

theorem relinkPrev_apply_at (h : Nat → Option DNode) (nid : Nat) (p : Option Nat) :
    relinkPrev h (some nid) p nid =
      (h nid).map fun n : DNode => { n with prev := p } := by
  show (if nid = nid then _ else _) = _
  rw [if_pos rfl]

theorem represents_delete (l : DTokenList) (a : List Nat) (i : Nat) (b : List Nat)
    (hrep : represents l (a ++ i :: b)) (hnodup : (a ++ i :: b).Nodup) :
    (delete_token_from_list_heap l (some i)).1 = b.head? ∧
    represents (delete_token_from_list_heap l (some i)).2 (a ++ b) := by
  obtain ⟨hfront, hback, hnodes⟩ := hrep
  have hnd := hnodup
  rw [List.nodup_append] at hnd
  obtain ⟨hndA, hndIB, hdisj⟩ := hnd
  have hndB : b.Nodup := (List.nodup_cons.mp hndIB).2
  have hiB : i ∉ b := (List.nodup_cons.mp hndIB).1
  have hiA : i ∉ a := fun h => hdisj h (by simp)
  have hdisjAB : ∀ j, j ∈ a → j ∈ b → False :=
    fun j hja hjb => hdisj hja (by simp [hjb])
  have hlenIds : (a ++ i :: b).length = a.length + b.length + 1 := by
    simp only [List.length_append, List.length_cons]
    omega
  have hgi : (a ++ i :: b).get? a.length = some i := by
    rw [List.get?_append_right (le_refl a.length)]
    simp
  have hki : a.length < (a ++ i :: b).length := by
    rw [hlenIds]
    omega
  obtain ⟨nd0, hnd0, hprev0, hnext0⟩ := hnodes a.length hki
  have hgeti : (a ++ i :: b).get ⟨a.length, hki⟩ = i := by
    have h2 := hgi
    rw [List.get?_eq_get hki] at h2
    exact Option.some_injective _ h2
  rw [hgeti] at hnd0
  have hprevA : nd0.prev = a.getLast? := by
    rw [hprev0]
    rcases a with _ | ⟨a0, as⟩
    · simp
    · rw [if_neg (by simp : ¬(a0 :: as : List Nat).length = 0)]
      rw [List.get?_append (by simp : (a0 :: as : List Nat).length - 1 <
        (a0 :: as).length)]
      rw [← List.getLast?_eq_get?]
  have hnextB : nd0.next = b.head? := by
    rw [hnext0]
    rw [List.get?_append_right (by omega : a.length ≤ a.length + 1)]
    rw [show a.length + 1 - a.length = 1 by omega]
    rw [show ((i :: b).get? 1 : Option Nat) = b.get? 0 from rfl]
    exact get?_zero_head? b
  have hfst : (delete_token_from_list_heap l (some i)).1 = nd0.next := by
    simp only [delete_token_from_list_heap, hnd0, Option.getD_some]
  have hfrontEq : (delete_token_from_list_heap l (some i)).2.front_token =
      if l.front_token = some i then nd0.next else l.front_token := by
    simp only [delete_token_from_list_heap, hnd0, Option.getD_some]
  have hbackEq : (delete_token_from_list_heap l (some i)).2.back_token =
      if l.back_token = some i then nd0.prev else l.back_token := by
    simp only [delete_token_from_list_heap, hnd0, Option.getD_some]
  have hheapAt : ∀ j, (delete_token_from_list_heap l (some i)).2.heap j =
      if j = i then none
      else relinkPrev (relinkNext l.heap nd0.prev nd0.next) nd0.next nd0.prev j := by
    intro j
    simp only [delete_token_from_list_heap, hnd0, Option.getD_some]
  have hgIds_ge : ∀ m, a.length + 1 ≤ m →
      (a ++ i :: b).get? m = b.get? (m - a.length - 1) := by
    intro m hm
    rw [List.get?_append_right (by omega : a.length ≤ m)]
    rw [show m - a.length = (m - a.length - 1) + 1 by omega]
    rfl
  refine ⟨by rw [hfst, hnextB], ?_, ?_, ?_⟩
  · -- front anchor
    rw [hfrontEq]
    rcases a with _ | ⟨a0, as⟩
    · have hf2 : l.front_token = some i := by simpa using hfront
      rw [if_pos hf2, hnextB]
      simp
    · have hf2 : l.front_token = some a0 := by simpa using hfront
      have hne : ¬l.front_token = some i := by
        rw [hf2]
        intro h
        exact hiA (by simp [Option.some_injective _ h])
      rw [if_neg hne, hf2]
      simp
  · -- back anchor
    rw [hbackEq]
    rcases hbc : b with _ | ⟨b0, bs⟩
    · have hb2 : l.back_token = some i := by
        rw [hback, hbc]
        exact List.getLast?_concat a
      rw [if_pos hb2, hprevA]
      simp
    · have hb2 : l.back_token = (b0 :: bs).getLast? := by
        rw [hback, hbc, List.getLast?_append_of_ne_nil a (by simp),
          List.getLast?_cons_cons]
      obtain ⟨bl, hbl⟩ : ∃ bl, (b0 :: bs).getLast? = some bl :=
        ⟨_, List.getLast?_eq_getLast _ (by simp)⟩
      have hblmem : bl ∈ b := by
        rw [hbc]
        exact List.mem_of_mem_getLast? (Option.mem_def.mpr hbl)
      have hne : ¬l.back_token = some i := by
        rw [hb2, hbl]
        intro h
        exact hiB ((Option.some_injective _ h) ▸ hblmem)
      rw [if_neg hne, hb2, List.getLast?_append_of_ne_nil a (by simp)]
  · -- the nodes
    intro k hk
    have hkAB : k < a.length + b.length := by
      simpa [List.length_append] using hk
    have haddrG : (a ++ b).get? k = some ((a ++ b).get ⟨k, hk⟩) :=
      List.get?_eq_get hk
    by_cases hkA : k < a.length
    · -- a node from the first part
      have hklt : k < (a ++ i :: b).length := by
        rw [hlenIds]
        omega
      obtain ⟨n, hn, hprev, hnext⟩ := hnodes k hklt
      have haddra : a.get? k = some ((a ++ b).get ⟨k, hk⟩) := by
        rw [← List.get?_append hkA]
        exact haddrG
      have hgets : (a ++ i :: b).get ⟨k, hklt⟩ = (a ++ b).get ⟨k, hk⟩ := by
        have h2 : (a ++ i :: b).get? k = a.get? k := List.get?_append hkA
        rw [List.get?_eq_get hklt, haddra] at h2
        exact Option.some_injective _ h2
      rw [hgets] at hn
      have haddrmemA : (a ++ b).get ⟨k, hk⟩ ∈ a := by
        rcases List.mem_iff_get?.mpr ⟨k, haddra⟩ with h
        exact h
      have haddr_ne_i : ¬(a ++ b).get ⟨k, hk⟩ = i :=
        fun h => hiA (h ▸ haddrmemA)
      have hnx_ne : ¬some ((a ++ b).get ⟨k, hk⟩) = nd0.next := by
        rw [hnextB]
        intro h
        exact hdisjAB _ haddrmemA
          (List.mem_of_mem_head? (Option.mem_def.mpr h.symm))
      have hprevcongr : (if k = 0 then none else (a ++ i :: b).get? (k - 1)) =
          (if k = 0 then none else (a ++ b).get? (k - 1)) := by
        rcases Nat.eq_zero_or_pos k with h0 | h0
        · simp [h0]
        · rw [if_neg (by omega : ¬k = 0), if_neg (by omega : ¬k = 0)]
          rw [List.get?_append (by omega : k - 1 < a.length)]
          rw [List.get?_append (by omega : k - 1 < a.length)]
      by_cases hlastk : k + 1 = a.length
      · -- the last node of the first part: next is repointed to b.head?
        have hlastA : a.getLast? = some ((a ++ b).get ⟨k, hk⟩) := by
          rw [List.getLast?_eq_get?, show a.length - 1 = k by omega]
          exact haddra
        have hpe : some ((a ++ b).get ⟨k, hk⟩) = nd0.prev := by
          rw [hprevA, hlastA]
        refine ⟨{ n with next := nd0.next }, ?_, ?_, ?_⟩
        · rw [hheapAt _, if_neg haddr_ne_i,
            relinkPrev_apply_ne _ _ _ _ hnx_ne, ← hpe, relinkNext_apply_at, hn]
          rfl
        · change n.prev = _
          rw [hprev, hprevcongr]
        · change nd0.next = _
          rw [hnextB, show k + 1 = a.length from hlastk,
            List.get?_append_right (le_refl a.length), Nat.sub_self]
          exact (get?_zero_head? b).symm
      · -- an interior node of the first part: untouched
        have hnp_ne : ¬some ((a ++ b).get ⟨k, hk⟩) = nd0.prev := by
          rw [hprevA]
          intro h
          have h2 : a.get? (a.length - 1) = some ((a ++ b).get ⟨k, hk⟩) := by
            rw [← List.getLast?_eq_get?]
            exact h.symm
          have := List.get?_inj hkA hndA (haddra.trans h2.symm)
          omega
        refine ⟨n, ?_, ?_, ?_⟩
        · rw [hheapAt _, if_neg haddr_ne_i,
            relinkPrev_apply_ne _ _ _ _ hnx_ne, relinkNext_apply_ne _ _ _ _ hnp_ne]
          exact hn
        · rw [hprev, hprevcongr]
        · rw [hnext]
          rw [List.get?_append (by omega : k + 1 < a.length)]
          rw [List.get?_append (by omega : k + 1 < a.length)]
    · -- a node from the second part
      have hklt : k + 1 < (a ++ i :: b).length := by
        rw [hlenIds]
        omega
      obtain ⟨n, hn, hprev, hnext⟩ := hnodes (k + 1) hklt
      have haddrb : b.get? (k - a.length) = some ((a ++ b).get ⟨k, hk⟩) := by
        rw [← List.get?_append_right (by omega : a.length ≤ k)]
        exact haddrG
      have hgets : (a ++ i :: b).get ⟨k + 1, hklt⟩ = (a ++ b).get ⟨k, hk⟩ := by
        have h2 : (a ++ i :: b).get? (k + 1) = b.get? (k - a.length) := by
          rw [hgIds_ge (k + 1) (by omega)]
          congr 1
          omega
        rw [List.get?_eq_get hklt, haddrb] at h2
        exact Option.some_injective _ h2
      rw [hgets] at hn
      have haddrmemB : (a ++ b).get ⟨k, hk⟩ ∈ b :=
        List.mem_iff_get?.mpr ⟨k - a.length, haddrb⟩
      have haddr_ne_i : ¬(a ++ b).get ⟨k, hk⟩ = i :=
        fun h => hiB (h ▸ haddrmemB)
      have hnp_ne : ¬some ((a ++ b).get ⟨k, hk⟩) = nd0.prev := by
        rw [hprevA]
        intro h
        exact hdisjAB _ (List.mem_of_mem_getLast? (Option.mem_def.mpr h.symm))
          haddrmemB
      have hnextcongr : (a ++ i :: b).get? (k + 2) = (a ++ b).get? (k + 1) := by
        rw [hgIds_ge (k + 2) (by omega)]
        rw [List.get?_append_right (by omega : a.length ≤ k + 1)]
        congr 1
        omega
      by_cases hheadk : k = a.length
      · -- the head of the second part: prev is repointed to a.getLast?
        have hpe : some ((a ++ b).get ⟨k, hk⟩) = nd0.next := by
          rw [hnextB, ← get?_zero_head? b, show (0 : Nat) = k - a.length by omega]
          exact haddrb.symm
        refine ⟨{ n with prev := nd0.prev }, ?_, ?_, ?_⟩
        · rw [hheapAt _, if_neg haddr_ne_i, ← hpe, relinkPrev_apply_at,
            relinkNext_apply_ne _ _ _ _ hnp_ne, hn]
          rfl
        · change nd0.prev = _
          rw [hprevA]
          rcases Nat.eq_zero_or_pos a.length with h0 | h0
          · have ha : a = [] := List.length_eq_zero.mp h0
            subst ha
            simp [show k = 0 by omega]
          · rw [if_neg (by omega : ¬k = 0)]
            rw [show k - 1 = a.length - 1 by omega]
            rw [List.get?_append (by omega : a.length - 1 < a.length)]
            rw [← List.getLast?_eq_get?]
        · change n.next = _
          rw [hnext, hnextcongr]
      · -- an interior node of the second part: untouched
        have hnx_ne : ¬some ((a ++ b).get ⟨k, hk⟩) = nd0.next := by
          rw [hnextB, ← get?_zero_head? b]
          intro h
          have := List.get?_inj (by omega : k - a.length < b.length) hndB
            (haddrb.trans h)
          omega
        refine ⟨n, ?_, ?_, ?_⟩
        · rw [hheapAt _, if_neg haddr_ne_i,
            relinkPrev_apply_ne _ _ _ _ hnx_ne, relinkNext_apply_ne _ _ _ _ hnp_ne]
          exact hn
        · rw [hprev]
          rw [if_neg (by omega : ¬k + 1 = 0), if_neg (by omega : ¬k = 0)]
          rw [show k + 1 - 1 = k from rfl]
          rw [hgIds_ge k (by omega)]
          rw [List.get?_append_right (by omega : a.length ≤ k - 1)]
          congr 1
          omega
        · rw [hnext, hnextcongr]


/-- C10: the operations preserve the doubly-linked-list layout invariant
`represents` (the anchors are the first and last address — hence NULL
together exactly when the list is empty — the first node's prev and the
last node's next are NULL, and adjacent nodes' next/prev links are mutual
inverses), together with distinctness of the node addresses:
`insert_token` at a fresh address places the token at the back (the list
now lays out `ids ++ [i]` and the back anchor is the new node);
`delete_token_from_list` relinks both neighbours and re-anchors front or
back when the deleted node was an anchor (the list lays out `a ++ b`),
returning the deleted node's successor; and deleting NULL returns NULL
with the list unchanged. -/
theorem dll_operations_preserve_invariant
    (l : DTokenList) (ids : List Nat)
    (hrep : represents l ids) (hnodup : ids.Nodup) :
    (∀ i t, l.heap i = none →
      represents (insert_token_heap l i t) (ids ++ [i]) ∧
      (ids ++ [i]).Nodup ∧
      (insert_token_heap l i t).back_token = some i) ∧
    (∀ a i b, ids = a ++ i :: b →
      (delete_token_from_list_heap l (some i)).1 = b.head? ∧
      represents (delete_token_from_list_heap l (some i)).2 (a ++ b) ∧
      (a ++ b).Nodup) ∧
    delete_token_from_list_heap l none = (none, l) := by
  refine ⟨?_, ?_, rfl⟩
  · intro i t hfresh
    have hni : i ∉ ids := not_mem_of_heap_none hrep hfresh
    refine ⟨represents_insert l ids i t hrep hnodup hfresh, ?_, ?_⟩
    · rw [List.nodup_append]
      refine ⟨hnodup, by simp, ?_⟩
      intro x hx hxi
      rw [List.mem_singleton] at hxi
      exact hni (hxi ▸ hx)
    · simp [insert_token_heap]
  · intro a i b hids
    subst hids
    have hnd := hnodup
    rw [List.nodup_append] at hnd
    obtain ⟨hA, hIB, hd⟩ := hnd
    obtain ⟨hrd1, hrd2⟩ := represents_delete l a i b hrep hnodup
    refine ⟨hrd1, hrd2, ?_⟩
    rw [List.nodup_append]
    exact ⟨hA, (List.nodup_cons.mp hIB).2, fun x hx hxb => hd hx (by simp [hxb])⟩

/-- C10 witness: the one-node list laying out `[0]`; insertion at any
fresh address, deletion of node 0, and deletion of NULL all behave as the
invariant theorem states. -/
theorem dll_operations_preserve_invariant_witness :
    (∀ i t, dllWitnessList.heap i = none →
      represents (insert_token_heap dllWitnessList i t) ([0] ++ [i]) ∧
      ([0] ++ [i] : List Nat).Nodup ∧
      (insert_token_heap dllWitnessList i t).back_token = some i) ∧
    (∀ a i b, [0] = a ++ i :: b →
      (delete_token_from_list_heap dllWitnessList (some i)).1 = b.head? ∧
      represents (delete_token_from_list_heap dllWitnessList (some i)).2 (a ++ b) ∧
      (a ++ b).Nodup) ∧
    delete_token_from_list_heap dllWitnessList none = (none, dllWitnessList) :=
  dll_operations_preserve_invariant dllWitnessList [0]
    ⟨rfl, rfl, fun k hk => by
      have hk0 : k = 0 := Nat.lt_one_iff.mp (by simpa using hk)
      subst hk0
      exact ⟨_, rfl, rfl, rfl⟩⟩
    (by decide)


theorem f_read_char_clean {f : CFile} {c : Char} (loc : Location)
    (h : f.data.get? f.pos = some c) (hb : c ≠ '\\') (hr : c ≠ '\r') :
    f_read_char f loc =
      (some c, { f with pos := f.pos + 1 },
        if c = '\n' then { loc with line := loc.line + 1, column := 0 }
        else { loc with column := loc.column + 1 }) := by
  obtain ⟨d, p⟩ := f
  replace h : d.get? p = some c := h
  have hrr : readResolve { data := d, pos := p } =
      (some c, { data := d, pos := p + 1 }) := by
    simp [readResolve, fgetc_at d p h, contTest, hb]
  have hcr : crConvert (some c) { data := d, pos := p + 1 } =
      (some c, { data := d, pos := p + 1 }) := by
    unfold crConvert
    rw [if_neg (by simp [hr])]
  unfold f_read_char
  rw [hrr]
  simp only [hcr, Option.some.injEq]

theorem f_read_char_at_eof {f : CFile} (loc : Location)
    (h : f.data.get? f.pos = none) :
    f_read_char f loc = (none, f, { loc with column := loc.column + 1 }) := by
  obtain ⟨d, p⟩ := f
  replace h : d.get? p = none := h
  have hrr : readResolve { data := d, pos := p } = (none, { data := d, pos := p }) := by
    simp [readResolve, fgetc_at_none d p h, contTest]
  unfold f_read_char
  rw [hrr]
  simp [crConvert]

theorem identChar_ne_backslash {c : Char}
    (h : (is_identifier c || c.isDigit) = true) : c ≠ '\\' := by
  rintro rfl
  exact absurd h (by decide)

theorem identChar_ne_cr {c : Char}
    (h : (is_identifier c || c.isDigit) = true) : c ≠ '\r' := by
  rintro rfl
  exact absurd h (by decide)

theorem identChar_ne_nl {c : Char}
    (h : (is_identifier c || c.isDigit) = true) : c ≠ '\n' := by
  rintro rfl
  exact absurd h (by decide)

theorem identChar_not_space {c : Char}
    (h : (is_identifier c || c.isDigit) = true) : isspace c = false := by
  cases hs : isspace c
  · rfl
  · exfalso
    have := hs
    simp only [isspace, Bool.or_eq_true, beq_iff_eq] at this
    rcases this with ((((h1 | h1) | h1) | h1) | h1) | h1 <;>
      (subst h1; exact absurd h (by decide))


theorem read_name_run :
    ∀ (rest : List Char) (fuel : Nat) (pre suf : List Char) (fid : Nat × String)
      (i c : Int) (acc : String) (ch : Char),
    rest.length + 1 ≤ fuel →
    (∀ d ∈ rest, (is_identifier d || d.isDigit) = true) →
    (∀ d, suf.head? = some d → (is_identifier d || d.isDigit) = false ∧ d ≠ '\\') →
    read_name fuel { data := pre ++ rest ++ suf, pos := pre.length }
      { file_name := some fid, line := i, column := c } acc ch =
      (acc.push ch ++ String.mk rest,
        { data := pre ++ rest ++ suf, pos := pre.length + rest.length },
        { file_name := some fid, line := i, column := c + rest.length }) := by
  intro rest
  induction rest with
  | nil =>
    intro fuel pre suf fid i c acc ch hfuel hid hsuf
    rcases fuel with _ | m
    · omega
    have hget : ((pre ++ ([] : List Char) ++ suf).get? pre.length : Option Char) =
        suf.head? := by
      simp only [List.append_nil]
      rw [List.get?_append_right (le_refl _), Nat.sub_self, get?_zero_head?]
    simp only [read_name]
    rcases hs : suf.head? with _ | d
    · rw [f_peek_char_eof (f := { data := pre ++ [] ++ suf, pos := pre.length })
        (hget.trans hs)]
      apply Prod.ext <;> simp
    · obtain ⟨hnid, hnb⟩ := hsuf d hs
      rw [f_peek_char_simple (f := { data := pre ++ [] ++ suf, pos := pre.length })
        (hget.trans hs) hnb]
      simp only [hnid, Bool.false_eq_true, if_false]
      apply Prod.ext <;> simp
  | cons ch2 rest ih =>
    intro fuel pre suf fid i c acc ch hfuel hid hsuf
    rcases fuel with _ | m
    · exact absurd hfuel (by omega)
    have hget : ((pre ++ (ch2 :: rest) ++ suf).get? pre.length : Option Char) =
        some ch2 := by
      rw [List.append_assoc, List.get?_append_right (le_refl _), Nat.sub_self]
      rfl
    have hid2 : (is_identifier ch2 || ch2.isDigit) = true := hid ch2 (by simp)
    simp only [read_name]
    rw [f_peek_char_simple
      (f := { data := pre ++ (ch2 :: rest) ++ suf, pos := pre.length })
      hget (identChar_ne_backslash hid2)]
    simp only [hid2, if_true]
    rw [f_read_char_clean
      (f := { data := pre ++ (ch2 :: rest) ++ suf, pos := pre.length })
      _ hget (identChar_ne_backslash hid2) (identChar_ne_cr hid2)]
    rw [if_neg (identChar_ne_nl hid2)]
    have harr : pre ++ (ch2 :: rest) ++ suf = (pre ++ [ch2]) ++ rest ++ suf := by
      simp
    have hlen2 : pre.length + 1 = (pre ++ [ch2]).length := by simp
    rw [show ({ data := pre ++ (ch2 :: rest) ++ suf, pos := pre.length + 1 } : CFile) =
      { data := (pre ++ [ch2]) ++ rest ++ suf, pos := (pre ++ [ch2]).length } by
        rw [harr, hlen2]]
    dsimp only []
    rw [ih m (pre ++ [ch2]) suf fid i (c + 1) (acc.push ch) ch2 (by
        simp only [List.length_cons] at hfuel
        omega)
      (fun d hd => hid d (by simp [hd])) hsuf]
    have hstr : (acc.push ch).push ch2 ++ String.mk rest =
        acc.push ch ++ String.mk (ch2 :: rest) := by
      apply String.ext
      simp
    have hpos : (pre ++ [ch2]).length + rest.length =
        pre.length + (ch2 :: rest).length := by
      simp only [List.length_append, List.length_cons, List.length_nil]
      omega
    have hcol : (c + 1) + (rest.length : Int) = c + ((ch2 :: rest).length : Int) := by
      simp only [List.length_cons]
      push_cast
      ring
    rw [hstr, hpos, hcol, harr]


theorem tokenize_go_skip {fuel : Nat} {f : CFile} {loc : Location}
    {acc : List Token} {c : Char} (hget : f.data.get? f.pos = some c)
    (hb : c ≠ '\\') (hr : c ≠ '\r') (hsp : isspace c = true) :
    tokenize_go (fuel + 1) f loc acc =
      tokenize_go fuel { f with pos := f.pos + 1 }
        (if c = '\n' then { loc with line := loc.line + 1, column := 0 }
         else { loc with column := loc.column + 1 }) acc := by
  simp only [tokenize_go]
  rw [f_read_char_clean _ hget hb hr]
  dsimp only []
  simp only [hsp, if_true]

theorem tokenize_go_eof (fuel : Nat) (f : CFile) (loc : Location)
    (acc : List Token) (h : f.data.get? f.pos = none) :
    (tokenize_go fuel f loc acc).1 = acc := by
  cases fuel
  · rfl
  · simp only [tokenize_go]
    rw [f_read_char_at_eof _ h]

theorem tokenize_go_word {fuel : Nat} (pre suf : List Char) (w : String)
    (fid : Nat × String) (i c : Int) (acc : List Token)
    (hw : w.data ≠ [])
    (hfuel : w.data.length ≤ fuel)
    (hid : ∀ d ∈ w.data, (is_identifier d || d.isDigit) = true)
    (hsuf : ∀ d, suf.head? = some d →
      (is_identifier d || d.isDigit) = false ∧ d ≠ '\\') :
    tokenize_go (fuel + 1) { data := pre ++ w.data ++ suf, pos := pre.length }
      { file_name := some fid, line := i, column := c } acc =
      tokenize_go fuel
        { data := pre ++ w.data ++ suf, pos := pre.length + w.data.length }
        { file_name := some fid, line := i, column := c + w.data.length }
        (insert_token acc (new_token w
          { file_name := some fid, line := i, column := c + w.data.length })) := by
  have hmkw : String.mk w.data = w := by cases w; rfl
  rcases hwd : w.data with _ | ⟨ch, rest⟩
  · exact absurd hwd hw
  rw [hwd] at hmkw
  have hget : ((pre ++ (ch :: rest) ++ suf).get? pre.length : Option Char) =
      some ch := by
    rw [List.append_assoc, List.get?_append_right (le_refl _), Nat.sub_self]
    rfl
  have hidw : ∀ d ∈ ch :: rest, (is_identifier d || d.isDigit) = true := by
    rw [← hwd]
    exact hid
  have hidc : (is_identifier ch || ch.isDigit) = true := hidw ch (by simp)
  have hflen : (ch :: rest : List Char).length ≤ fuel := by rw [← hwd]; exact hfuel
  simp only [tokenize_go]
  rw [f_read_char_clean
    (f := { data := pre ++ (ch :: rest) ++ suf, pos := pre.length })
    _ hget (identChar_ne_backslash hidc) (identChar_ne_cr hidc)]
  dsimp only []
  rw [if_neg (identChar_ne_nl hidc)]
  simp only [identChar_not_space hidc, Bool.false_eq_true, if_false]
  simp only [scan_token, hidc, if_true]
  have harr : pre ++ (ch :: rest) ++ suf = (pre ++ [ch]) ++ rest ++ suf := by
    simp
  rw [show ({ data := pre ++ (ch :: rest) ++ suf, pos := pre.length + 1 } : CFile) =
    { data := (pre ++ [ch]) ++ rest ++ suf, pos := (pre ++ [ch]).length } by
      rw [harr]
      simp]
  rw [read_name_run rest fuel (pre ++ [ch]) suf fid i (c + 1) "" ch
    (by simp only [List.length_cons] at hflen; omega)
    (fun d hd => hidw d (by simp [hd])) hsuf]
  dsimp only []
  have hstr : ("".push ch ++ String.mk rest : String) = String.mk (ch :: rest) := by
    apply String.ext
    simp
  have hpos : (pre ++ [ch]).length + rest.length =
      pre.length + (ch :: rest : List Char).length := by
    simp only [List.length_append, List.length_cons, List.length_nil]
    omega
  have hcol : (c + 1) + (rest.length : Int) =
      c + ((ch :: rest : List Char).length : Int) := by
    simp only [List.length_cons]
    push_cast
    ring
  rw [hstr, hmkw, hpos, hcol, ← harr]


theorem get?_append_cons {α : Type _} (pre : List α) (x : α) (xs : List α) :
    (pre ++ x :: xs).get? pre.length = some x := by
  rw [List.get?_append_right (le_refl _), Nat.sub_self]
  rfl

theorem length_mk (l : List Char) : (String.mk l).length = l.length := rfl

theorem wsText_length (g : Nat) (w : String) (ws : LayLine) :
    (wsText ((g, w) :: ws)).length = g + w.length + (wsText ws).length := by
  simp only [wsText, String.length_append, spacesStr, length_mk,
    List.length_replicate]

theorem layoutText_length (l : LayLine) (ls : List LayLine) :
    (layoutText "\n" (l :: ls)).length =
      (wsText l).length + 1 + (layoutText "\n" ls).length := by
  simp only [layoutText, String.length_append,
    show ("\n" : String).length = 1 from rfl]

theorem wsText_data (g : Nat) (w : String) (ws : LayLine) :
    (wsText ((g, w) :: ws)).data =
      List.replicate g ' ' ++ w.data ++ (wsText ws).data := by
  simp [wsText, spacesStr]

theorem layoutText_data (l : LayLine) (ls : List LayLine) :
    (layoutText "\n" (l :: ls)).data =
      (wsText l).data ++ '\n' :: (layoutText "\n" ls).data := by
  simp [layoutText, show ("\n" : String).data = ['\n'] from rfl]

theorem wsRaws_shift (fid : Nat × String) (i c : Int) (g : Nat) (w : String)
    (ws : LayLine) :
    wsRaws fid i c ((g + 1, w) :: ws) = wsRaws fid i (c + 1) ((g, w) :: ws) := by
  simp only [wsRaws]
  have h : c + ((g + 1 : Nat) : Int) + w.length = c + 1 + (g : Int) + w.length := by
    push_cast
    ring
  rw [h]

theorem insertAll_cons (acc : List Token) (r : String × Location)
    (raws : List (String × Location)) :
    insertAll acc (r :: raws) = insertAll (insert_token acc (new_token r.1 r.2)) raws :=
  rfl

theorem tokenize_go_layout (fid : Nat × String) :
    ∀ fuel (ws : LayLine) (ls : List LayLine) (pre : List Char) (i c : Int)
      (acc : List Token),
    (∀ gw ∈ ws, identWord gw.2) →
    (∀ gw ∈ ws.tail, 1 ≤ gw.1) →
    (∀ l ∈ ls, l ≠ [] ∧ wfLine l) →
    (wsText ws).length + (layoutText "\n" ls).length + 2 ≤ fuel →
    (tokenize_go fuel
      { data := pre ++ (wsText ws).data ++ '\n' :: (layoutText "\n" ls).data,
        pos := pre.length }
      { file_name := some fid, line := i, column := c } acc).1 =
      insertAll acc (wsRaws fid i c ws ++ layoutRaws fid (i + 1) ls) := by
  intro fuel
  induction fuel using Nat.strong_induction_on with
  | _ fuel IH =>
  intro ws ls pre i c acc hws hgap hls hfuel
  rcases fuel with _ | fuel
  · omega
  rcases ws with _ | ⟨⟨g, w⟩, ws⟩
  · -- end of line: the terminator
    have hdata : pre ++ (wsText []).data ++ '\n' :: (layoutText "\n" ls).data =
        pre ++ '\n' :: (layoutText "\n" ls).data := by
      simp [wsText]
    rw [hdata]
    rw [tokenize_go_skip (get?_append_cons pre _ _) (by decide) (by decide)
      (by decide)]
    rw [if_pos rfl]
    dsimp only []
    rcases ls with _ | ⟨l, ls⟩
    · -- end of file
      have hend : ((pre ++ '\n' :: (layoutText "\n" []).data).get?
          (pre.length + 1) : Option Char) = none := by
        apply List.get?_eq_none.mpr
        simp [layoutText]
      exact (tokenize_go_eof fuel _ _ acc hend).trans rfl
    · -- next line
      have hdata2 : pre ++ '\n' :: (layoutText "\n" (l :: ls)).data =
          (pre ++ ['\n']) ++ (wsText l).data ++ '\n' :: (layoutText "\n" ls).data := by
        rw [layoutText_data]
        simp
      have hpos2 : pre.length + 1 = (pre ++ ['\n']).length := by simp
      have hrec : ({ data := pre ++ '\n' :: (layoutText "\n" (l :: ls)).data, pos := pre.length + 1 } : CFile) = { data := (pre ++ ['\n']) ++ (wsText l).data ++ '\n' :: (layoutText "\n" ls).data, pos := (pre ++ ['\n']).length } := by
        rw [hdata2, hpos2]
      rw [hrec]
      rw [IH fuel (by omega) l ls (pre ++ ['\n']) (i + 1) 0 acc
        (fun gw hgw => ((hls l (by simp)).2).1 gw hgw)
        (fun gw hgw => ((hls l (by simp)).2).2 gw hgw)
        (fun l2 hl2 => hls l2 (by simp [hl2]))
        (by
          rw [layoutText_length] at hfuel
          simp only [wsText, show ("" : String).length = 0 from rfl] at hfuel ⊢
          omega)]
      simp [layoutRaws, wsRaws]
  · rcases g with _ | g
    · -- a word at the cursor
      obtain ⟨hwne, hwid⟩ : identWord w := hws (0, w) (by simp)
      have hwdne : w.data ≠ [] := by
        intro h
        exact hwne (String.ext (by simp [h]))
      have hdata : pre ++ (wsText ((0, w) :: ws)).data ++
          '\n' :: (layoutText "\n" ls).data =
          pre ++ w.data ++ ((wsText ws).data ++ '\n' :: (layoutText "\n" ls).data) := by
        rw [wsText_data]
        simp
      rw [hdata]
      have hsuf : ∀ d, ((wsText ws).data ++
          '\n' :: (layoutText "\n" ls).data).head? = some d →
          (is_identifier d || d.isDigit) = false ∧ d ≠ '\\' := by
        intro d hd
        rcases ws with _ | ⟨⟨g2, w2⟩, ws2⟩
        · simp only [wsText, show ("" : String).data = [] from rfl,
            List.nil_append, List.head?_cons, Option.some.injEq] at hd
          subst hd
          exact ⟨by decide, by decide⟩
        · have hg2 : 1 ≤ g2 := hgap (g2, w2) (by simp)
          rcases g2 with _ | g2
          · omega
          · rw [wsText_data] at hd
            simp only [List.replicate_succ, List.append_assoc, List.cons_append,
              List.head?_cons, Option.some.injEq] at hd
            subst hd
            exact ⟨by decide, by decide⟩
      have hwordfuel : w.data.length ≤ fuel := by
        rw [wsText_length] at hfuel
        have hwl : w.data.length = w.length := rfl
        omega
      rw [tokenize_go_word pre _ w fid i c acc hwdne hwordfuel hwid hsuf]
      have hdata2 : pre ++ w.data ++
          ((wsText ws).data ++ '\n' :: (layoutText "\n" ls).data) =
          (pre ++ w.data) ++ (wsText ws).data ++
            '\n' :: (layoutText "\n" ls).data := by
        simp
      have hpos2 : pre.length + w.data.length = (pre ++ w.data).length := by simp
      have hrec : ({ data := pre ++ w.data ++ ((wsText ws).data ++ '\n' :: (layoutText "\n" ls).data), pos := pre.length + w.data.length } : CFile) = { data := (pre ++ w.data) ++ (wsText ws).data ++ '\n' :: (layoutText "\n" ls).data, pos := (pre ++ w.data).length } := by
        rw [hdata2, hpos2]
      rw [hrec]
      rw [IH fuel (by omega) ws ls (pre ++ w.data) i (c + w.data.length)
        (insert_token acc (new_token w
          { file_name := some fid, line := i, column := c + w.data.length }))
        (fun gw hgw => hws gw (by simp [hgw]))
        (fun gw hgw => hgap gw (by
          rcases ws with _ | ⟨gw2, ws2⟩
          · simp at hgw
          · simp only [List.tail_cons] at hgw ⊢
            simp [hgw]))
        hls
        (by
          rw [wsText_length] at hfuel
          have hw1 : 0 < w.length := List.length_pos.mpr hwdne
          omega)]
      have hraw : wsRaws fid i c ((0, w) :: ws) =
          (w, { file_name := some fid, line := i, column := c + w.data.length }) ::
            wsRaws fid i (c + w.data.length) ws := by
        simp only [wsRaws]
        have h0 : c + ((0 : Nat) : Int) + (w.length : Int) =
            c + (w.data.length : Int) := by
          have hwl : w.data.length = w.length := rfl
          rw [hwl]
          push_cast
          ring
        rw [h0]
      rw [hraw, List.cons_append, insertAll_cons]
    · -- a space of the gap at the cursor
      have hdata : pre ++ (wsText ((g + 1, w) :: ws)).data ++
          '\n' :: (layoutText "\n" ls).data =
          pre ++ ' ' :: ((wsText ((g, w) :: ws)).data ++
            '\n' :: (layoutText "\n" ls).data) := by
        rw [wsText_data, wsText_data]
        simp [List.replicate_succ]
      rw [hdata]
      rw [tokenize_go_skip (get?_append_cons pre _ _) (by decide) (by decide)
        (by decide)]
      rw [if_neg (by decide)]
      dsimp only []
      have hdata2 : pre ++ ' ' :: ((wsText ((g, w) :: ws)).data ++
          '\n' :: (layoutText "\n" ls).data) =
          (pre ++ [' ']) ++ (wsText ((g, w) :: ws)).data ++
            '\n' :: (layoutText "\n" ls).data := by
        simp
      have hpos2 : pre.length + 1 = (pre ++ [' ']).length := by simp
      have hrec : ({ data := pre ++ ' ' :: ((wsText ((g, w) :: ws)).data ++ '\n' :: (layoutText "\n" ls).data), pos := pre.length + 1 } : CFile) = { data := (pre ++ [' ']) ++ (wsText ((g, w) :: ws)).data ++ '\n' :: (layoutText "\n" ls).data, pos := (pre ++ [' ']).length } := by
        rw [hdata2, hpos2]
      rw [hrec]
      rw [IH fuel (by omega) ((g, w) :: ws) ls (pre ++ [' ']) i (c + 1) acc
        (fun gw hgw => by
          simp only [List.mem_cons] at hgw
          rcases hgw with h | h
          · rw [h]
            exact hws (g + 1, w) (by simp)
          · exact hws gw (by simp [h]))
        (by simpa using hgap)
        hls
        (by
          rw [wsText_length] at hfuel
          rw [wsText_length]
          omega)]
      rw [wsRaws_shift]


theorem tokenize_file_layout (ls : List LayLine) (fid : Nat × String) (fuel : Nat)
    (hwf : wfLayout ls) (hfuel : (layoutText "\n" ls).length + 2 ≤ fuel) :
    tokenize_file fuel (layoutText "\n" ls).data fid =
      insertAll [] (layoutRaws fid 1 ls) := by
  obtain ⟨hne, hls, hfirst⟩ := hwf
  rcases ls with _ | ⟨l, ls⟩
  · exact absurd rfl hne
  unfold tokenize_file
  have hdata : (layoutText "\n" (l :: ls)).data =
      ([] : List Char) ++ (wsText l).data ++ '\n' :: (layoutText "\n" ls).data := by
    rw [layoutText_data]
    simp
  rw [show ({ data := (layoutText "\n" (l :: ls)).data, pos := 0 } : CFile) = { data := [] ++ (wsText l).data ++ '\n' :: (layoutText "\n" ls).data, pos := ([] : List Char).length } from by rw [hdata]; rfl]
  rw [tokenize_go_layout fid fuel l ls [] 1 0 []
    (fun gw hgw => ((hls l (by simp)).2).1 gw hgw)
    (fun gw hgw => ((hls l (by simp)).2).2 gw hgw)
    (fun l2 hl2 => hls l2 (by simp [hl2]))
    (by
      rw [layoutText_length] at hfuel
      omega)]
  show insertAll [] (wsRaws fid 1 0 l ++ layoutRaws fid (1 + 1) ls) =
    insertAll [] (layoutRaws fid 1 (l :: ls))
  norm_num [layoutRaws]


theorem empty_append_str (x : String) : "" ++ x = x := by
  apply String.ext
  simp [show ("" : String).data = [] from rfl]

theorem str_append_assoc (x y z : String) : x ++ y ++ z = x ++ (y ++ z) := by
  apply String.ext
  simp

theorem write_go_congr : ∀ (l1 l2 : List Token),
    List.Forall₂ (fun a b => a.string = b.string ∧ a.location = b.location) l1 l2 →
    ∀ cur, write_go cur l1 = write_go cur l2 := by
  intro l1 l2 h
  induction h with
  | nil =>
    intro cur
    rfl
  | cons hab hrest ih =>
    intro cur
    obtain ⟨hs, hl⟩ := hab
    simp only [write_go, hs, hl, ih]

theorem insertAll_strloc :
    ∀ (raws : List (String × Location)) (acc1 acc2 : List Token),
    List.Forall₂ (fun a b => a.string = b.string ∧ a.location = b.location) acc1 acc2 →
    List.Forall₂ (fun a b => a.string = b.string ∧ a.location = b.location)
      (insertAll acc1 raws) (acc2 ++ raws.map rawToken) := by
  intro raws
  induction raws with
  | nil =>
    intro acc1 acc2 h
    simpa [insertAll] using h
  | cons r rs ih =>
    intro acc1 acc2 h
    rw [insertAll_cons]
    rw [show acc2 ++ (r :: rs).map rawToken =
      (acc2 ++ [rawToken r]) ++ rs.map rawToken from by simp]
    apply ih
    unfold insert_token
    exact List.rel_append h (List.Forall₂.cons ⟨rfl, rfl⟩ List.Forall₂.nil)


theorem write_go_step_same (fid : Nat × String) (t : Token) (ts : List Token)
    (i c col : Int) (s : String)
    (hs : t.string = some s)
    (hl : t.location = { file_name := some fid, line := i, column := col })
    (hc : c ≤ col) :
    write_go { file_name := some fid, line := i, column := c } (t :: ts) =
      spacesStr (col - c).toNat ++ s ++
        write_go { file_name := some fid, line := i, column := col + s.length } ts := by
  by_cases hcc : c < col
  · simp only [write_go, hs, hl]
    dsimp only []
    rw [if_neg (not_not_intro rfl)]
    dsimp only []
    rw [if_neg (lt_irrefl i), if_pos hcc]
    dsimp only []
    apply String.ext
    simp [spacesStr, show ("" : String).data = ([] : List Char) from rfl]
  · have hceq : c = col := le_antisymm hc (not_lt.mp hcc)
    subst hceq
    simp only [write_go, hs, hl]
    dsimp only []
    rw [if_neg (not_not_intro rfl)]
    dsimp only []
    rw [if_neg (lt_irrefl i), if_neg hcc]
    dsimp only []
    apply String.ext
    simp [spacesStr, show ("" : String).data = ([] : List Char) from rfl]

theorem write_go_step_jump (fid : Nat × String) (t : Token) (ts : List Token)
    (i c i2 col : Int) (s : String)
    (hs : t.string = some s)
    (hl : t.location = { file_name := some fid, line := i2, column := col })
    (hi : i < i2) (hcol : 0 ≤ col) :
    write_go { file_name := some fid, line := i, column := c } (t :: ts) =
      String.mk (List.replicate (i2 - i).toNat '\n') ++ spacesStr col.toNat ++ s ++
        write_go { file_name := some fid, line := i2, column := col + s.length } ts := by
  simp only [write_go, hs, hl]
  dsimp only []
  rw [if_neg (not_not_intro rfl)]
  dsimp only []
  rw [if_pos hi]
  dsimp only []
  by_cases hc0 : (0 : Int) < col
  · rw [if_pos hc0]
    dsimp only []
    apply String.ext
    simp [spacesStr, show ("" : String).data = ([] : List Char) from rfl]
  · have hcz : col = 0 := le_antisymm (not_lt.mp hc0) hcol
    subst hcz
    rw [if_neg hc0]
    dsimp only []
    apply String.ext
    simp [spacesStr, show ("" : String).data = ([] : List Char) from rfl]

theorem write_go_first (fid : Nat × String) (t : Token) (ts : List Token)
    (i2 col : Int) (s : String)
    (hs : t.string = some s)
    (hl : t.location = { file_name := some fid, line := i2, column := col }) :
    write_go { file_name := none, line := 0, column := 0 } (t :: ts) =
      s ++ write_go { file_name := some fid, line := i2, column := col + s.length } ts := by
  simp only [write_go, hs, hl]
  dsimp only []
  rw [if_pos (show (some fid : FileName) ≠ (none : FileName) by simp)]
  dsimp only []
  rw [if_neg (not_not_intro rfl)]
  rw [if_neg (lt_irrefl i2), if_neg (lt_irrefl col)]
  dsimp only []
  apply String.ext
  simp [show ("" : String).data = ([] : List Char) from rfl]


theorem write_go_wsline (fid : Nat × String) :
    ∀ (ws : LayLine) (i c : Int) (rest : List Token),
    write_go { file_name := some fid, line := i, column := c }
      ((wsRaws fid i c ws).map rawToken ++ rest) =
      wsText ws ++ write_go
        { file_name := some fid, line := i, column := c + (wsText ws).length }
        rest := by
  intro ws
  induction ws with
  | nil =>
    intro i c rest
    rw [show (wsText [] : String) = "" from rfl]
    rw [empty_append_str]
    rw [show (c + (("" : String).length : Int)) = c from by simp]
    rfl
  | cons gw ws ih =>
    obtain ⟨g, w⟩ := gw
    intro i c rest
    rw [show (wsRaws fid i c ((g, w) :: ws)).map rawToken = rawToken (w, { file_name := some fid, line := i, column := c + g + w.length }) :: (wsRaws fid i (c + g + w.length) ws).map rawToken from by simp [wsRaws]]
    rw [List.cons_append]
    have htok_loc : (rawToken (w, { file_name := some fid, line := i, column := c + g + w.length })).location = { file_name := some fid, line := i, column := c + g } := by
      simp only [rawToken]
      rw [show (c + (g : Int) + (w.length : Int)) - w.length = c + g from by ring]
    rw [write_go_step_same fid _ _ i c (c + g) w rfl htok_loc (by omega)]
    rw [show ((c + (g : Int)) - c).toNat = g from by omega]
    rw [show (c + (g : Int)) + (w.length : Int) = c + g + w.length from by ring]
    rw [ih i (c + g + w.length) rest]
    rw [show c + (g : Int) + (w.length : Int) + ((wsText ws).length : Int) = c + ((wsText ((g, w) :: ws)).length : Int) from by
      rw [wsText_length]
      push_cast
      ring]
    rw [show (wsText ((g, w) :: ws) : String) = spacesStr g ++ w ++ wsText ws from rfl]
    apply String.ext
    simp

theorem write_go_lines (fid : Nat × String) :
    ∀ (ls : List LayLine) (i c : Int),
    (∀ l ∈ ls, l ≠ []) →
    write_go { file_name := some fid, line := i, column := c }
      ((layoutRaws fid (i + 1) ls).map rawToken) = tailText ls := by
  intro ls
  induction ls with
  | nil =>
    intro i c hne
    rfl
  | cons l ls ih =>
    intro i c hne
    have hlne := hne l (by simp)
    rcases hl : l with _ | ⟨⟨g0, w0⟩, lrest⟩
    · exact absurd hl hlne
    rw [show layoutRaws fid (i + 1) (((g0, w0) :: lrest) :: ls) = wsRaws fid (i + 1) 0 ((g0, w0) :: lrest) ++ layoutRaws fid (i + 1 + 1) ls from rfl]
    rw [show wsRaws fid (i + 1) 0 ((g0, w0) :: lrest) = (w0, { file_name := some fid, line := i + 1, column := 0 + (g0 : Int) + w0.length }) :: wsRaws fid (i + 1) (0 + (g0 : Int) + w0.length) lrest from by simp [wsRaws]]
    rw [List.map_append, List.map_cons, List.cons_append]
    have htok_loc : (rawToken (w0, { file_name := some fid, line := i + 1, column := 0 + (g0 : Int) + w0.length })).location = { file_name := some fid, line := i + 1, column := (g0 : Int) } := by
      simp only [rawToken]
      rw [show (0 + (g0 : Int) + (w0.length : Int)) - w0.length = (g0 : Int) from by ring]
    rw [write_go_step_jump fid _ _ i c (i + 1) (g0 : Int) w0 rfl htok_loc
      (by omega) (by omega)]
    rw [show ((g0 : Int) + (w0.length : Int)) = 0 + (g0 : Int) + w0.length from by ring]
    rw [write_go_wsline fid lrest (i + 1) (0 + (g0 : Int) + w0.length) _]
    rw [ih (i + 1) _ (fun l2 h2 => hne l2 (by simp [h2]))]
    rw [show ((i + 1 : Int) - i).toNat = 1 from by omega]
    rw [show ((g0 : Int)).toNat = g0 from by omega]
    rw [show (tailText (((g0, w0) :: lrest) :: ls) : String) = "\n" ++ (spacesStr g0 ++ w0 ++ wsText lrest) ++ tailText ls from rfl]
    apply String.ext
    simp [show ("\n" : String).data = ['\n'] from rfl]


theorem layoutText_tail : ∀ (ls : List LayLine) (l : LayLine),
    layoutText "\n" (l :: ls) = wsText l ++ (tailText ls ++ "\n") := by
  intro ls
  induction ls with
  | nil =>
    intro l
    apply String.ext
    simp [layoutText, tailText, show ("" : String).data = [] from rfl]
  | cons l2 ls ih =>
    intro l
    show wsText l ++ "\n" ++ layoutText "\n" (l2 :: ls) = _
    rw [ih l2]
    apply String.ext
    simp [tailText]

/-- C4 (amended): for a single-file input in the stringifier's
representable class — a nonempty list of lines, each a sequence of
identifier-or-number words separated by at least one space, with no
indentation before the very first token, LF line endings, and a terminator
after every line (hence no comments, no directives, no macros) — rendering
the token list produced by tokenizing the text reproduces it exactly.
Outside this class the round trip fails (see the counterexample): the
renderer always appends a final newline, drops trailing spaces, loses the
first token's indentation, and writes every gap as spaces. -/
theorem tokenize_write_roundtrip (ls : List LayLine) (fid : Nat × String)
    (fuel : Nat) (hwf : wfLayout ls)
    (hfuel : (layoutText "\n" ls).length + 2 ≤ fuel) :
    write_token_list (tokenize_file fuel (layoutText "\n" ls).data fid) =
      layoutText "\n" ls := by
  obtain ⟨hne, hls, hfirst⟩ := hwf
  rw [tokenize_file_layout ls fid fuel ⟨hne, hls, hfirst⟩ hfuel]
  unfold write_token_list
  have h2 := insertAll_strloc (layoutRaws fid 1 ls) [] [] List.Forall₂.nil
  rw [List.nil_append] at h2
  rw [write_go_congr _ _ h2 _]
  rcases ls with _ | ⟨l, ls2⟩
  · exact absurd rfl hne
  rcases hl : l with _ | ⟨⟨g0, w0⟩, lrest⟩
  · exact absurd hl (hls l (by simp)).1
  have hg0 : g0 = 0 := by
    rw [hl] at hfirst
    exact hfirst
  subst hg0
  rw [show layoutRaws fid 1 (((0, w0) :: lrest) :: ls2) = wsRaws fid 1 0 ((0, w0) :: lrest) ++ layoutRaws fid (1 + 1) ls2 from rfl]
  rw [show wsRaws fid 1 0 ((0, w0) :: lrest) = (w0, { file_name := some fid, line := 1, column := 0 + ((0 : Nat) : Int) + w0.length }) :: wsRaws fid 1 (0 + ((0 : Nat) : Int) + w0.length) lrest from rfl]
  rw [show ((0 : Int) + ((0 : Nat) : Int) + (w0.length : Int)) = (w0.length : Int) from by push_cast; ring]
  rw [List.cons_append, List.map_cons, List.map_append]
  have htl : (rawToken (w0, { file_name := some fid, line := 1, column := (w0.length : Int) })).location = { file_name := some fid, line := 1, column := 0 } := by
    simp only [rawToken]
    rw [show ((w0.length : Int)) - w0.length = 0 from by ring]
  rw [write_go_first fid _ _ 1 0 w0 rfl htl]
  rw [show ((0 : Int) + (w0.length : Int)) = (w0.length : Int) from by ring]
  rw [write_go_wsline fid lrest 1 (w0.length : Int) _]
  rw [write_go_lines fid ls2 1 _ (fun l2 h2 => (hls l2 (by simp [h2])).1)]
  rw [layoutText_tail ls2 ((0, w0) :: lrest)]
  rw [show (wsText ((0, w0) :: lrest) : String) = spacesStr 0 ++ w0 ++ wsText lrest from rfl]
  apply String.ext
  simp [spacesStr]

/-- C4 counterexample: the comment-free, macro-free one-character file `a`
does not round-trip — the renderer appends a final newline, yielding
`a`+LF; the input contains no CR, so CR/CRLF normalisation cannot account
for the difference.  The third and fourth conjuncts record that the
tokenized input indeed has no comment tokens and the input no carriage
returns. -/
theorem tokenize_write_not_identity :
    write_token_list (tokenize_file 3 ("a".data) (0, "a.c")) = "a\n" ∧
    ("a\n" : String) ≠ "a" ∧
    count_comments (tokenize_file 3 ("a".data) (0, "a.c")) = 0 ∧
    (∀ ch ∈ ("a" : String).data, ch ≠ '\r') := by
  refine ⟨by decide, by decide, by decide, by decide⟩

/-- C4 witness: the two-line text `int` + LF + ` x` + LF round-trips. -/
theorem tokenize_write_roundtrip_witness :
    write_token_list (tokenize_file 20
      (layoutText "\n" [[(0, "int")], [(1, "x")]]).data (0, "a.c")) =
      layoutText "\n" [[(0, "int")], [(1, "x")]] :=
  tokenize_write_roundtrip [[(0, "int")], [(1, "x")]] (0, "a.c") 20
    ⟨by decide, by
      intro l hl
      simp only [List.mem_cons, List.not_mem_nil, or_false] at hl
      rcases hl with h | h <;> subst h
      · exact ⟨by decide, fun gw hgw => by
          simp only [List.mem_singleton] at hgw
          subst hgw
          exact ⟨by decide, by decide⟩, fun gw hgw => by simp at hgw⟩
      · exact ⟨by decide, fun gw hgw => by
          simp only [List.mem_singleton] at hgw
          subst hgw
          exact ⟨by decide, by decide⟩, fun gw hgw => by simp at hgw⟩, rfl⟩
    (by decide)

end TCPP
